import Mathlib

/-!
# Link validation for a generated documentation site

A shallow embedding of `scripts/validateLinks.js` and a verification of its
specification.

Modelling conventions.

* A JavaScript string is the list of its code units (`Str`).  The script only
  ever compares code units with ASCII literals, takes prefixes, suffixes and
  concatenations, so a code unit is represented by a `Char`.
* `undefined` in the second slot of a link is `none`.
* A thrown `TypeError` is an explicit result (`Except JsError _`, or `none`
  for the value of a run whose output so far is kept).
* `console.log` is modelled by the list of lines written, in order.
* A plain JavaScript object (`{}`) is the list of its own properties in
  enumeration order; the `in` operator also sees the properties inherited
  from `Object.prototype`.
* The regular expressions are modelled by deterministic scanners that follow
  the backtracking order of the JavaScript matcher (leftmost start, greedy
  quantifiers), and `matchAll` by a left-to-right scan that resumes at the end
  of each match.
-/

namespace ValidateLinks

/-! ## Strings -/

/-- A JavaScript string: the list of its code units. -/
abbrev Str := List Char

/-- The exception a JavaScript operation on `undefined` raises. -/
inductive JsError where
  | typeError
  deriving DecidableEq, Repr

/-- `s.startsWith(p)`. -/
def startsWith (s p : Str) : Bool := p.isPrefixOf s

/-- `s.endsWith(p)`. -/
def endsWith (s p : Str) : Bool := p.isSuffixOf s

/-- `s.includes(sub)`: `sub` occurs in `s` as a contiguous substring. -/
def includes : Str → Str → Bool
  | [], sub => sub.isEmpty
  | c :: cs, sub => sub.isPrefixOf (c :: cs) || includes cs sub

/-- `s.substring(n)` for `n ≥ 0`. -/
def substring (s : Str) (n : Nat) : Str := s.drop n

/-! ## `path.dirname` (Node.js, POSIX flavour)

The library function, transcribed from Node's `lib/path.js`:
scan from the last code unit down to index 1 for the first `/` that follows
(right to left) a code unit that is not `/`. -/

/-- The loop `for (i = path.length - 1; i >= 1; --i)` of `dirname`: `dirname_end path i matchedSlash`
visits the indices `i, i-1, ..., 1` and returns the value of `end` (`none` is `-1`). -/
def dirname_end (path : Str) : Nat → Bool → Option Nat
  | 0, _ => none
  | i + 1, matchedSlash =>
    if path.getD (i + 1) ' ' == '/' then
      if !matchedSlash then some (i + 1) else dirname_end path i matchedSlash
    else dirname_end path i false

/-- `path.dirname(path)`. -/
def dirname (path : Str) : Str :=
  if path.length == 0 then ['.']
  else
    let hasRoot := path.getD 0 ' ' == '/'
    match dirname_end path (path.length - 1) true with
    | none => if hasRoot then ['/'] else ['.']
    | some e => if hasRoot && e == 1 then ['/', '/'] else path.take e

/-! ## Objects -/

/-- The string-keyed properties of `Object.prototype`: every plain object inherits them, so the
`in` operator answers `true` for each of them on any object created by `{}`. -/
def objectPrototypeKeys : List Str :=
  ["constructor".toList, "__defineGetter__".toList, "__defineSetter__".toList,
   "hasOwnProperty".toList, "__lookupGetter__".toList, "__lookupSetter__".toList,
   "isPrototypeOf".toList, "propertyIsEnumerable".toList, "toString".toList,
   "valueOf".toList, "__proto__".toList, "toLocaleString".toList]

/-- A link `[target, fragment]`; the fragment is `none` when `match[3]` is `undefined`. -/
abbrev Link := Str × Option Str

/-- The record `{links, fragments, errors}` of one page.  `fragments` is a plain object used as a
set: the list holds its own property names. -/
structure PageInfo where
  links : List Link
  fragments : List Str
  errors : List Str
  deriving DecidableEq, Repr

/-- The object `pages_info`: own properties (page path, record) in enumeration order. -/
abbrev PageSet := List (Str × PageInfo)

/-- The own property names of `pages_info`, in the order `for (var page in pages_info)` visits. -/
def keys (pages_info : PageSet) : List Str := pages_info.map Prod.fst

/-- Own-property lookup `pages_info[k]` (`none` when `k` is not an own property). -/
def own (pages_info : PageSet) (k : Str) : Option PageInfo :=
  match pages_info.find? (fun kv => kv.1 == k) with
  | some kv => some kv.2
  | none => none

/-- `k in pages_info`: an own property or one inherited from `Object.prototype`. -/
def in_pages (k : Str) (pages_info : PageSet) : Bool :=
  (own pages_info k).isSome || objectPrototypeKeys.contains k

/-- `f in info.fragments`: an own property or one inherited from `Object.prototype`. -/
def in_fragments (f : Str) (info : PageInfo) : Bool :=
  info.fragments.contains f || objectPrototypeKeys.contains f

/-- `ret.fragments[k] = true`.  Assigning a primitive to `__proto__` goes to the inherited setter,
which ignores it; every other name becomes (or stays) an own property. -/
def set_fragment (ret : PageInfo) (k : Str) : PageInfo :=
  if k == "__proto__".toList || ret.fragments.contains k then ret
  else { ret with fragments := ret.fragments ++ [k] }

/-- `pages_info[k] = v` for a page path `k` (never an array index nor `__proto__`): overwrite in
place when `k` is already an own property, else append. -/
def set_prop : PageSet → Str → PageInfo → PageSet
  | [], k, v => [(k, v)]
  | (k0, v0) :: rest, k, v => if k0 == k then (k0, v) :: rest else (k0, v0) :: set_prop rest k v

/-! ## Regular expressions -/

/-- `matchAll` with a global regular expression whose matches are never empty: try a match at the
current position; on success record it and resume right after it, else move one code unit on.
`m s` is the match attempt anchored at the head of `s`, giving the match and the length of
`match[0]`; the first argument counts the code units still covered by the previous match. -/
def matchAll {α : Type} (m : Str → Option (α × Nat)) : Nat → Str → List α
  | _, [] => []
  | skip + 1, _ :: cs => matchAll m skip cs
  | 0, c :: cs =>
    match m (c :: cs) with
    | some (a, n) => a :: matchAll m (n - 1) cs
    | none => matchAll m 0 cs

/-- What the script reads of one match of the href pattern: `match[1]` and `match[3]`. -/
structure HrefMatch where
  g1 : Str
  g3 : Option Str
  deriving DecidableEq, Repr

/-- The literal prefix of the href pattern. -/
def href_lit : Str := " href=\"".toList

/-- The class `[^"?#]`. -/
def pathChar (c : Char) : Bool := c != '"' && c != '?' && c != '#'

/-- The class `[^"?]`. -/
def fragChar (c : Char) : Bool := c != '"' && c != '?'

/-- The class `[^"]`. -/
def notQuote (c : Char) : Bool := c != '"'

/-- One anchored attempt of `/ href="([^"?#]*)(#([^"?]*))?([^"]*)?"/`.
Each starred class is greedy and the class that follows it accepts every code unit the starred one
gives back except the delimiter it stopped at, so the first (greedy) path succeeds exactly when a
closing `"` exists, and backtracking never changes the groups. -/
def match_href (s : Str) : Option (HrefMatch × Nat) :=
  if href_lit.isPrefixOf s then
    let r0 := s.drop href_lit.length
    let g1 := r0.takeWhile pathChar
    let r1 := r0.dropWhile pathChar
    match r1 with
    | '#' :: t =>
      let g3 := t.takeWhile fragChar
      let r2 := t.dropWhile fragChar
      let g4 := r2.takeWhile notQuote
      match r2.dropWhile notQuote with
      | '"' :: _ => some (⟨g1, some g3⟩, href_lit.length + g1.length + 1 + g3.length + g4.length + 1)
      | _ => none
    | _ =>
      let g4 := r1.takeWhile notQuote
      match r1.dropWhile notQuote with
      | '"' :: _ => some (⟨g1, none⟩, href_lit.length + g1.length + g4.length + 1)
      | _ => none
  else none

/-- One anchored attempt of `/ id="([^"]*)"/` or `/ name="([^"]*)"/` (`lit` is the literal prefix):
gives `match[1]`. -/
def match_attr (lit : Str) (s : Str) : Option (Str × Nat) :=
  if lit.isPrefixOf s then
    let r := s.drop lit.length
    let v := r.takeWhile notQuote
    match r.dropWhile notQuote with
    | '"' :: _ => some (v, lit.length + v.length + 1)
    | _ => none
  else none

/-- The code units `.` does not match (no `s` flag): the line terminators. -/
def isLineTerminator (c : Char) : Bool :=
  c == '\n' || c == '\r' || c == Char.ofNat 0x2028 || c == Char.ofNat 0x2029

/-- The greedy `.{0,30}` at the head of `s`. -/
def dotRun (s : Str) : Str := (s.takeWhile (fun c => !isLineTerminator c)).take 30

/-- Backtracking of the first `.{0,30}`: the largest `j` not above the given bound such that `][`
follows `j` code units of `s`. -/
def md_prefix_len (s : Str) : Nat → Option Nat
  | 0 => if [']', '['].isPrefixOf s then some 0 else none
  | j + 1 => if [']', '['].isPrefixOf (s.drop (j + 1)) then some (j + 1) else md_prefix_len s j

/-- One anchored attempt of `/.{0,30}\]\[.{0,30}/`: gives `match[0]`. -/
def match_md (s : Str) : Option (Str × Nat) :=
  match md_prefix_len s (dotRun s).length with
  | some j =>
    let n := j + 2 + (dotRun (s.drop (j + 2))).length
    some (s.take n, n)
  | none => none

/-! ## `load_page_info` -/

/-- The route markers `subUrls`. -/
def subUrls : List Str := ["getting-started".toList, "packages".toList]

/-- The condition `!p.endsWith(".html") && subUrls.some(subUrl => p.includes(subUrl))`. -/
def needs_html (p : Str) : Bool :=
  !endsWith p ".html".toList && subUrls.any (fun subUrl => includes p subUrl)

/-- `ret.links.push(l)`. -/
def push_link (ret : PageInfo) (l : Link) : PageInfo :=
  { ret with links := ret.links ++ [l] }

/-- `ret.errors.push(e)`. -/
def push_error (ret : PageInfo) (e : Str) : PageInfo :=
  { ret with errors := ret.errors ++ [e] }

/-- The loop `while (subpath.startsWith("../")) { dir = dirname(dir); subpath = subpath.substring(3); }`:
the final values of `dir` and `subpath`. -/
def strip_dotdot : Str → Str → Str × Str
  | dir, '.' :: '.' :: '/' :: rest => strip_dotdot (dirname dir) rest
  | dir, subpath => (dir, subpath)

/-- The body of the loop over the href matches (lines 46-87), as a step on `ret`. -/
def href_step (relative_path : Str) (ret : PageInfo) (m : HrefMatch) : Except JsError PageInfo :=
  if m.g1.length == 0 then
    match m.g3 with
    | none => .error .typeError
    | some g3 =>
      if g3.length > 0 then
        if needs_html relative_path then
          .ok (push_link ret (relative_path ++ ".html".toList, some g3))
        else
          .ok (push_link ret (relative_path, some g3))
      else .ok ret
  else if startsWith m.g1 "https://".toList || startsWith m.g1 "http://".toList then .ok ret
  else if startsWith m.g1 "mailto:".toList then .ok ret
  else if startsWith m.g1 "&".toList then .ok ret
  else if startsWith m.g1 "/css".toList || startsWith m.g1 "/assets".toList then .ok ret
  else if startsWith m.g1 "/".toList then
    if needs_html m.g1 then
      .ok (push_link ret (m.g1 ++ ".html".toList, m.g3))
    else
      .ok (push_link ret (m.g1, m.g3))
  else
    let ds := strip_dotdot (dirname relative_path) m.g1
    let dir := ds.1
    let subpath := ds.2
    if needs_html subpath then
      .ok (push_link ret (dir ++ "/".toList ++ subpath ++ ".html".toList, m.g3))
    else
      .ok (push_link ret (dir ++ "/".toList ++ subpath, m.g3))

/-- The loop over the href matches: stops at the first exception. -/
def href_loop (relative_path : Str) : PageInfo → List HrefMatch → Except JsError PageInfo
  | ret, [] => .ok ret
  | ret, m :: ms =>
    match href_step relative_path ret m with
    | .error e => .error e
    | .ok ret1 => href_loop relative_path ret1 ms

/-- The matches of the href pattern in `content`. -/
def href_matches (content : Str) : List HrefMatch := matchAll match_href 0 content

/-- The matches (`match[1]`) of the ` id="..."` pattern. -/
def id_matches (content : Str) : List Str := matchAll (match_attr " id=\"".toList) 0 content

/-- The matches (`match[1]`) of the ` name="..."` pattern. -/
def name_matches (content : Str) : List Str := matchAll (match_attr " name=\"".toList) 0 content

/-- The matches (`match[0]`) of the markdown pattern. -/
def md_matches (content : Str) : List Str := matchAll match_md 0 content

/-- `load_page_info(page, relative_path)` after the file read: `content` is the text read. -/
def load_page_info (content : Str) (relative_path : Str) : Except JsError PageInfo :=
  match href_loop relative_path { links := [], fragments := [], errors := [] }
      (href_matches content) with
  | .error e => .error e
  | .ok ret1 =>
    let ret2 := (id_matches content).foldl set_fragment ret1
    let ret3 := (name_matches content).foldl set_fragment ret2
    .ok ((md_matches content).foldl
      (fun ret m => push_error ret ("Incorrect markdown link: ".toList ++ m)) ret3)

/-! ## `validate_page` -/

/-- The line written for a link whose target is missing. -/
def broken_link_line (relpath target : Str) : Str :=
  "::error file=".toList ++ relpath ++ "::Broken internal link from ".toList ++ relpath ++
    " -> ".toList ++ target

/-- The line written for a link whose fragment is missing. -/
def broken_fragment_line (relpath target fragment : Str) : Str :=
  "::error file=".toList ++ relpath ++ "::Broken fragment link from ".toList ++ relpath ++
    " -> ".toList ++ target ++ "#".toList ++ fragment

/-- The line written for an entry of `errors`. -/
def other_line (relpath other : Str) : Str :=
  "::error file=".toList ++ relpath ++ "::".toList ++ other

/-- The body of the loop over `page_info.links`: the line written, if any.
`pages_info[link[0]].fragments` is `undefined` when `link[0]` is only an inherited property, and
the `in` operator then throws. -/
def check_link (relpath : Str) (pages_info : PageSet) (link : Link) :
    Except JsError (Option Str) :=
  if !in_pages link.1 pages_info then
    .ok (some (broken_link_line relpath link.1))
  else
    match link.2 with
    | none => .ok none
    | some fragment =>
      match own pages_info link.1 with
      | none => .error .typeError
      | some target_info =>
        if !in_fragments fragment target_info then
          .ok (some (broken_fragment_line relpath link.1 fragment))
        else .ok none

/-- The loop over `page_info.links`, started with the given `rc`: the lines written and the final
`rc` (`none` when an exception ended the loop). -/
def validate_links (relpath : Str) (pages_info : PageSet) : List Link → Bool → List Str × Option Bool
  | [], rc => ([], some rc)
  | link :: rest, rc =>
    match check_link relpath pages_info link with
    | .error _ => ([], none)
    | .ok none => validate_links relpath pages_info rest rc
    | .ok (some line) =>
      let r := validate_links relpath pages_info rest true
      (line :: r.1, r.2)

/-- `validate_page(page, pages_info)`: the lines written and the value returned (`none` when a
`TypeError` is thrown). -/
def validate_page (page : Str) (pages_info : PageSet) : List Str × Option Bool :=
  let relpath := substring page 1
  match own pages_info page with
  | none => ([], none)
  | some page_info =>
    match validate_links relpath pages_info page_info.links false with
    | (out, none) => (out, none)
    | (out, some rc) =>
      (out ++ page_info.errors.map (other_line relpath), some (rc || !page_info.errors.isEmpty))

/-! ## `main` -/

/-- The loop `for (var page in pages_info)` of lines 143-149 over the remaining keys, started with
the given `rc`.  `rc ||= validate_page(...)` evaluates its right-hand side only while `rc` is
false. -/
def main_loop (pages_info : PageSet) (only_docs : Bool) : List Str → Bool → List Str × Option Bool
  | [], rc => ([], some rc)
  | page :: rest, rc =>
    if !startsWith page "/en/docs".toList && only_docs then
      main_loop pages_info only_docs rest rc
    else if rc then
      main_loop pages_info only_docs rest rc
    else
      match validate_page page pages_info with
      | (out, none) => (out, none)
      | (out, some r) =>
        let q := main_loop pages_info only_docs rest r
        (out ++ q.1, q.2)

/-- Lines 140-150 of `main`, on the completed `pages_info`: the lines written and the exit status
(`none` when the run ends with an uncaught `TypeError`). -/
def main_validate (pages_info : PageSet) (only_docs : Bool) : List Str × Option Nat :=
  match main_loop pages_info only_docs (keys pages_info) false with
  | (out, none) => (out, none)
  | (out, some rc) => (out, some (if rc then 1 else 0))

/-- Lines 130-138 of `main`: load every discovered page (`pages` pairs each relative path with the
text of its file) into `pages_info`; a rejected load ends the run. -/
def load_pages : PageSet → List (Str × Str) → Except JsError PageSet
  | pages_info, [] => .ok pages_info
  | pages_info, (relative, content) :: rest =>
    match load_page_info content relative with
    | .error e => .error e
    | .ok info => load_pages (set_prop pages_info relative info) rest

/-- The run of `main` on the discovered pages. -/
def main (pages : List (Str × Str)) (only_docs : Bool) : List Str × Option Nat :=
  match load_pages [] pages with
  | .error _ => ([], none)
  | .ok pages_info => main_validate pages_info only_docs

/-! ## Specification vocabulary -/

/-- A Page Path is root-relative: it begins with the separator. -/
def isPagePath (p : Str) : Prop := p.head? = some '/'

/-- The scope test of `main`: a page is skipped when `!page.startsWith("/en/docs") && only_docs`. -/
def in_scope (only_docs : Bool) (page : Str) : Bool :=
  !(!startsWith page "/en/docs".toList && only_docs)

/-- The line, if any, that checking one link writes (nothing when the check throws). -/
def link_out (relpath : Str) (pages_info : PageSet) (link : Link) : Option Str :=
  match check_link relpath pages_info link with
  | .ok o => o
  | .error _ => none

/-- The links of every record are Page Paths. -/
def links_are_paths (pages_info : PageSet) : Prop :=
  ∀ kv ∈ pages_info, ∀ l ∈ kv.2.links, isPagePath l.1

/-- The Page Set built from a list of (page path, record) pairs in discovery order. -/
def build_pages_info (records : List (Str × PageInfo)) : PageSet :=
  records.foldl (fun pages_info kv => set_prop pages_info kv.1 kv.2) []

/-- The skip rules of lines 59-65. -/
def is_skipped (p : Str) : Bool :=
  startsWith p "https://".toList || startsWith p "http://".toList ||
    startsWith p "mailto:".toList || startsWith p "&".toList ||
    startsWith p "/css".toList || startsWith p "/assets".toList

/-- The number of positions of `s` at which `sub` occurs. -/
def occurrences (sub : Str) : Str → Nat
  | [] => 0
  | c :: cs => (if sub.isPrefixOf (c :: cs) then 1 else 0) + occurrences sub cs

/-- The number of iterations of the loop `while (subpath.startsWith("../"))` on `subpath`. -/
def dotdot_iterations : Str → Nat
  | '.' :: '.' :: '/' :: rest => dotdot_iterations rest + 1
  | _ => 0

/-- The path made of `k` copies of `../`. -/
def dotdots : Nat → Str
  | 0 => []
  | k + 1 => '.' :: '.' :: '/' :: dotdots k

/-- The value written between the quotes of an href: the path part, `#` and the fragment when
there is one, then the remainder. -/
def href_value (p : Str) (fragment : Option Str) (q : Str) : Str :=
  match fragment with
  | none => p ++ q
  | some f => p ++ '#' :: f ++ q

/-- The target the loop body pushes for a path part that is neither empty nor skipped
(lines 66-87). -/
def link_target (relative_path p : Str) : Str :=
  if startsWith p "/".toList then
    if needs_html p then p ++ ".html".toList else p
  else
    let ds := strip_dotdot (dirname relative_path) p
    if needs_html ds.2 then ds.1 ++ "/".toList ++ ds.2 ++ ".html".toList
    else ds.1 ++ "/".toList ++ ds.2

/-! ## Concrete page sets -/

instance (p : Str) : Decidable (isPagePath p) := by
  unfold isPagePath
  infer_instance

instance (S : PageSet) : Decidable (links_are_paths S) := by
  unfold links_are_paths
  infer_instance

/-- Two pages with one defect each: a markdown artifact on the first, a link to a missing page on the
second. -/
def two_defective_pages : List (Str × Str) :=
  [("/en/a.html".toList, "x][y".toList),
   ("/en/b.html".toList, " href=\"/en/missing.html\"".toList)]

/-- A page linking to the fragment `constructor` of a page that defines only `intro`. -/
def constructor_fragment_pages : List (Str × Str) :=
  [("/en/a.html".toList, " href=\"/en/b.html#constructor\"".toList),
   ("/en/b.html".toList, "<h1 id=\"intro\">".toList)]

/-- A Page Set with one page, whose single link names a page that does not exist. -/
def missing_target_set : PageSet :=
  [("/en/a.html".toList,
    { links := [("/en/missing.html".toList, none)], fragments := [], errors := [] })]

/-- A Page Set with a clean page under `/en/docs` that links to a defective page outside it. -/
def docs_and_outside_set : PageSet :=
  [("/en/index.html".toList,
    { links := [("/en/nowhere.html".toList, none)], fragments := ["top".toList],
      errors := ["Incorrect markdown link: a][b".toList] }),
   ("/en/docs/a.html".toList,
    { links := [("/en/index.html".toList, some "top".toList), ("/en/index.html".toList, none)],
      fragments := [], errors := [] })]

/-! ## Lemmas: objects -/

theorem not_proto_of_pagePath {p : Str} (h : isPagePath p) :
    objectPrototypeKeys.contains p = false := by
  cases p with
  | nil => simp [isPagePath] at h
  | cons c cs =>
    simp only [isPagePath, List.head?_cons, Option.some.injEq] at h
    subst h
    rfl

theorem own_cons (kv : Str × PageInfo) (S : PageSet) (k : Str) :
    own (kv :: S) k = if kv.1 = k then some kv.2 else own S k := by
  unfold own
  by_cases h : kv.1 = k
  · simp [List.find?_cons, h]
  · simp [List.find?_cons, h]

theorem own_mem {S : PageSet} {k : Str} {v : PageInfo} (h : own S k = some v) : (k, v) ∈ S := by
  induction S with
  | nil => simp [own] at h
  | cons kv S ih =>
    rw [own_cons] at h
    by_cases hk : kv.1 = k
    · simp only [hk, if_true, Option.some.injEq] at h
      subst h; subst hk
      exact List.mem_cons_self _ _
    · simp only [hk, if_false] at h
      exact List.mem_cons_of_mem _ (ih h)

theorem own_eq_none_iff (S : PageSet) (k : Str) : own S k = none ↔ k ∉ keys S := by
  induction S with
  | nil => simp [own, keys]
  | cons kv S ih =>
    rw [own_cons]
    by_cases hk : kv.1 = k
    · simp only [hk, if_true]
      constructor
      · intro h
        exact absurd h (by intro h2; cases h2)
      · intro h
        exact absurd (by rw [← hk]; exact List.mem_cons_self _ _) h
    · simp only [hk, if_false, ih]
      simp only [keys, List.map_cons, List.mem_cons, not_or]
      constructor
      · intro h
        exact ⟨fun e => hk e.symm, h⟩
      · intro h
        exact h.2

theorem own_of_mem_keys {S : PageSet} {k : Str} (h : k ∈ keys S) : ∃ v, own S k = some v := by
  cases hv : own S k with
  | none => exact absurd h ((own_eq_none_iff S k).mp hv)
  | some v => exact ⟨v, rfl⟩

theorem in_pages_of_pagePath (S : PageSet) {k : Str} (h : isPagePath k) :
    in_pages k S = (own S k).isSome := by
  unfold in_pages
  rw [not_proto_of_pagePath h, Bool.or_false]

/-! ## Lemmas: `validate_page` -/

theorem check_link_pagePath (rp : Str) (S : PageSet) (l : Link) (h : isPagePath l.1) :
    ∃ o, check_link rp S l = .ok o := by
  unfold check_link
  rw [in_pages_of_pagePath S h]
  cases ho : own S l.1 with
  | none => exact ⟨some (broken_link_line rp l.1), by simp⟩
  | some t =>
    cases hf : l.2 with
    | none => exact ⟨none, by simp⟩
    | some f =>
      by_cases hin : in_fragments f t = true
      · exact ⟨none, by simp [hin]⟩
      · exact ⟨some (broken_fragment_line rp l.1 f), by simp [hin]⟩

theorem validate_links_ok (rp : Str) (S : PageSet) (links : List Link) (rc : Bool)
    (h : ∀ l ∈ links, ∃ o, check_link rp S l = .ok o) :
    validate_links rp S links rc =
      (links.filterMap (link_out rp S),
        some (rc || !(links.filterMap (link_out rp S)).isEmpty)) := by
  induction links generalizing rc with
  | nil => simp [validate_links]
  | cons l ls ih =>
    obtain ⟨o, ho⟩ := h l (List.mem_cons_self _ _)
    have ih2 := fun rc => ih rc (fun x hx => h x (List.mem_cons_of_mem _ hx))
    cases o with
    | none => simp [validate_links, ho, link_out, ih2, List.filterMap_cons]
    | some line => simp [validate_links, ho, link_out, ih2, List.filterMap_cons]

theorem validate_page_ok (P : Str) (S : PageSet) (info : PageInfo) (hP : own S P = some info)
    (h : ∀ l ∈ info.links, isPagePath l.1) :
    validate_page P S =
      (info.links.filterMap (link_out (P.drop 1) S) ++ info.errors.map (other_line (P.drop 1)),
        some (!(info.links.filterMap (link_out (P.drop 1) S)).isEmpty || !info.errors.isEmpty)) := by
  unfold validate_page
  simp only [hP, substring]
  rw [validate_links_ok (P.drop 1) S info.links false
    (fun l hl => check_link_pagePath _ S l (h l hl))]
  simp

theorem validate_page_returns (S : PageSet) (hS : links_are_paths S) {P : Str} (hP : P ∈ keys S) :
    ∃ r, (validate_page P S).2 = some r := by
  obtain ⟨info, hinfo⟩ := own_of_mem_keys hP
  rw [validate_page_ok P S info hinfo (hS _ (own_mem hinfo))]
  exact ⟨_, rfl⟩

/-! ## Lemmas: `main` -/

theorem main_loop_result (S : PageSet) (od : Bool) (ks : List Str) (rc : Bool)
    (h : ∀ P ∈ ks, ∃ r, (validate_page P S).2 = some r) :
    (main_loop S od ks rc).2 =
      some (rc || ks.any (fun P => in_scope od P && ((validate_page P S).2 == some true))) := by
  induction ks generalizing rc with
  | nil => simp [main_loop]
  | cons P ks ih =>
    have ih2 := fun rc => ih rc (fun x hx => h x (List.mem_cons_of_mem _ hx))
    obtain ⟨r, hr⟩ := h P (List.mem_cons_self _ _)
    unfold main_loop
    by_cases hsc : (!startsWith P "/en/docs".toList && od) = true
    · simp only [hsc, if_true, ih2, List.any_cons, in_scope]
      simp
    · have hin : in_scope od P = true := by
        unfold in_scope
        cases hb : (!startsWith P "/en/docs".toList && od) with
        | true => exact absurd hb hsc
        | false => rfl
      simp only [hsc, if_false, Bool.false_eq_true]
      cases rc with
      | true => simp [ih2]
      | false =>
        simp only [Bool.false_eq_true, if_false, List.any_cons, hin, Bool.true_and,
          Bool.false_or]
        cases hv : validate_page P S with
        | mk out res =>
          rw [hv] at hr
          simp only at hr
          subst hr
          simp only [ih2]
          cases r <;> simp

theorem validate_links_false (rp : Str) (S : PageSet) (links : List Link) (rc : Bool)
    (h : (validate_links rp S links rc).2 = some false) :
    (validate_links rp S links rc).1 = [] ∧ rc = false := by
  induction links generalizing rc with
  | nil => simpa [validate_links] using h
  | cons l ls ih =>
    unfold validate_links at h ⊢
    cases hc : check_link rp S l with
    | error e => simp [hc] at h
    | ok o =>
      cases o with
      | none =>
        simp only [hc] at h ⊢
        exact ih rc h
      | some line =>
        simp only [hc] at h ⊢
        exact absurd (ih true h).2 (by decide)

theorem validate_page_false (P : Str) (S : PageSet)
    (h : (validate_page P S).2 = some false) : validate_page P S = ([], some false) := by
  unfold validate_page at h ⊢
  cases hinfo : own S P with
  | none => simp [hinfo] at h
  | some info =>
    simp only [hinfo] at h ⊢
    cases hv : validate_links (substring P 1) S info.links false with
    | mk out res =>
      cases res with
      | none => simp [hv] at h
      | some rc =>
        simp only [hv, Option.some.injEq, Bool.or_eq_false_iff, Bool.not_eq_false',
          List.isEmpty_iff] at h
        have h2 := validate_links_false (substring P 1) S info.links false
          (by rw [hv]; simp [h.1])
        rw [hv] at h2
        simp only at h2
        simp [h2.1, h.1, h.2]

theorem validate_links_prefix (rp : Str) (S : PageSet) (links : List Link) (rc : Bool) :
    ∀ line ∈ (validate_links rp S links rc).1,
      ("::error file=".toList ++ rp ++ "::".toList) <+: line := by
  induction links generalizing rc with
  | nil => simp [validate_links]
  | cons l ls ih =>
    intro line hline
    unfold validate_links at hline
    cases hc : check_link rp S l with
    | error e => simp [hc] at hline
    | ok o =>
      cases o with
      | none =>
        simp only [hc] at hline
        exact ih rc line hline
      | some ln =>
        simp only [hc, List.mem_cons] at hline
        rcases hline with rfl | hmem
        · unfold check_link at hc
          by_cases hin : (!in_pages l.1 S) = true
          · simp only [hin, if_true, Except.ok.injEq, Option.some.injEq] at hc
            rw [← hc]
            exact ⟨"Broken internal link from ".toList ++ rp ++ " -> ".toList ++ l.1, by
              simp [broken_link_line]⟩
          · simp only [hin, if_false, Bool.false_eq_true] at hc
            cases hf : l.2 with
            | none => simp [hf] at hc
            | some f =>
              cases ho : own S l.1 with
              | none => simp [hf, ho] at hc
              | some t =>
                by_cases hfr : (!in_fragments f t) = true
                · simp only [hf, ho, hfr, if_true, Except.ok.injEq, Option.some.injEq] at hc
                  rw [← hc]
                  exact ⟨"Broken fragment link from ".toList ++ rp ++ " -> ".toList ++ l.1 ++
                    "#".toList ++ f, by simp [broken_fragment_line]⟩
                · simp [hf, ho, hfr] at hc
        · exact ih true line hmem

theorem validate_page_prefix (P : Str) (S : PageSet) :
    ∀ line ∈ (validate_page P S).1,
      ("::error file=".toList ++ P.drop 1 ++ "::".toList) <+: line := by
  intro line hline
  unfold validate_page at hline
  cases hinfo : own S P with
  | none => simp [hinfo] at hline
  | some info =>
    simp only [hinfo] at hline
    have hp := validate_links_prefix (substring P 1) S info.links false
    cases hv : validate_links (substring P 1) S info.links false with
    | mk out res =>
      rw [hv] at hline hp
      cases res with
      | none => exact hp line (by simpa using hline)
      | some rc =>
        simp only [List.mem_append, List.mem_map] at hline
        rcases hline with hmem | ⟨e, _, rfl⟩
        · exact hp line hmem
        · exact ⟨e, by simp [other_line, substring]⟩

theorem main_loop_out (S : PageSet) (od : Bool) (ks : List Str) (rc : Bool) :
    ∀ line ∈ (main_loop S od ks rc).1,
      ∃ P ∈ ks, in_scope od P = true ∧ line ∈ (validate_page P S).1 := by
  induction ks generalizing rc with
  | nil => simp [main_loop]
  | cons P ks ih =>
    intro line hline
    have lift : (∃ Q ∈ ks, in_scope od Q = true ∧ line ∈ (validate_page Q S).1) →
        ∃ Q ∈ P :: ks, in_scope od Q = true ∧ line ∈ (validate_page Q S).1 := by
      rintro ⟨Q, hQ, h1, h2⟩
      exact ⟨Q, List.mem_cons_of_mem _ hQ, h1, h2⟩
    unfold main_loop at hline
    by_cases hsc : (!startsWith P "/en/docs".toList && od) = true
    · simp only [hsc, if_true] at hline
      exact lift (ih rc line hline)
    · have hin : in_scope od P = true := by
        unfold in_scope
        cases hb : (!startsWith P "/en/docs".toList && od) with
        | true => exact absurd hb hsc
        | false => rfl
      simp only [hsc, if_false, Bool.false_eq_true] at hline
      cases rc with
      | true =>
        simp only [if_true] at hline
        exact lift (ih true line hline)
      | false =>
        simp only [Bool.false_eq_true, if_false] at hline
        cases hv : validate_page P S with
        | mk out res =>
          rw [hv] at hline
          cases res with
          | none =>
            exact ⟨P, List.mem_cons_self _ _, hin, by rw [hv]; simpa using hline⟩
          | some r =>
            simp only [List.mem_append] at hline
            rcases hline with hmem | hmem
            · exact ⟨P, List.mem_cons_self _ _, hin, by rw [hv]; exact hmem⟩
            · exact lift (ih r line hmem)

/-! ## Lemmas: the Page Set as a finite map -/

theorem own_eq_some_iff {S : PageSet} (hnd : (keys S).Nodup) (k : Str) (v : PageInfo) :
    own S k = some v ↔ (k, v) ∈ S := by
  constructor
  · exact own_mem
  · intro hmem
    induction S with
    | nil => cases hmem
    | cons kv S ih =>
      rw [own_cons]
      simp only [keys, List.map_cons, List.nodup_cons] at hnd
      rcases List.mem_cons.mp hmem with rfl | hin
      · simp
      · have hk : kv.1 ≠ k := by
          intro e
          apply hnd.1
          rw [e]
          exact List.mem_map_of_mem Prod.fst hin
        simp only [hk, if_false]
        exact ih hnd.2 hin

theorem own_perm {S S2 : PageSet} (hperm : S.Perm S2) (hnd : (keys S).Nodup) (k : Str) :
    own S2 k = own S k := by
  have hnd2 : (keys S2).Nodup := (hperm.map Prod.fst).nodup_iff.mp hnd
  apply Option.ext
  intro v
  simp only [Option.mem_def]
  rw [own_eq_some_iff hnd2, own_eq_some_iff hnd]
  exact hperm.symm.mem_iff

theorem check_link_congr {S S2 : PageSet} (h : ∀ k, own S2 k = own S k) (rp : Str) (l : Link) :
    check_link rp S2 l = check_link rp S l := by
  unfold check_link in_pages
  rw [h]

theorem validate_links_congr {S S2 : PageSet} (h : ∀ k, own S2 k = own S k) (rp : Str)
    (links : List Link) (rc : Bool) :
    validate_links rp S2 links rc = validate_links rp S links rc := by
  induction links generalizing rc with
  | nil => rfl
  | cons l ls ih =>
    unfold validate_links
    rw [check_link_congr h, ih, ih]

theorem validate_page_congr {S S2 : PageSet} (h : ∀ k, own S2 k = own S k) (P : Str) :
    validate_page P S2 = validate_page P S := by
  unfold validate_page
  rw [h]
  cases own S P with
  | none => rfl
  | some info =>
    simp only
    rw [validate_links_congr h]

theorem set_prop_fresh (S : PageSet) (k : Str) (v : PageInfo) (h : k ∉ keys S) :
    set_prop S k v = S ++ [(k, v)] := by
  induction S with
  | nil => rfl
  | cons kv S ih =>
    simp only [keys, List.map_cons, List.mem_cons, not_or] at h
    have hk : kv.1 ≠ k := fun e => h.1 e.symm
    obtain ⟨k0, v0⟩ := kv
    simp only [set_prop, List.cons_append]
    rw [if_neg (by simpa using hk), ih h.2]

theorem foldl_set_prop_nodup (acc l : PageSet) (h : (keys (acc ++ l)).Nodup) :
    l.foldl (fun pages_info kv => set_prop pages_info kv.1 kv.2) acc = acc ++ l := by
  induction l generalizing acc with
  | nil => simp
  | cons kv l ih =>
    have hfresh : kv.1 ∉ keys acc := by
      simp only [keys, List.map_append, List.map_cons] at h
      intro hin
      have := (List.nodup_append.mp h).2.2
      exact this hin (List.mem_cons_self _ _)
    simp only [List.foldl_cons]
    rw [set_prop_fresh acc kv.1 kv.2 hfresh]
    have h2 : (keys ((acc ++ [(kv.1, kv.2)]) ++ l)).Nodup := by
      simpa using h
    rw [ih _ h2]
    simp

/-- Distinct page paths: the Page Set holds the records in discovery order. -/
theorem build_pages_info_nodup (l : PageSet) (h : (keys l).Nodup) : build_pages_info l = l := by
  unfold build_pages_info
  rw [foldl_set_prop_nodup [] l (by simpa using h)]
  rfl

/-! ## Lemmas: scanning -/

theorem matchAll_skip_all {α : Type} (m : Str → Option (α × Nat)) (s : Str) (k : Nat)
    (h : s.length ≤ k) : matchAll m k s = [] := by
  induction s generalizing k with
  | nil => cases k <;> rfl
  | cons c cs ih =>
    cases k with
    | zero => simp at h
    | succ k =>
      simp only [matchAll]
      exact ih k (by simpa using h)

theorem takeWhile_append_stop (p : Char → Bool) (F : Str) (d : Char) (rest : Str)
    (hF : ∀ c ∈ F, p c = true) (hd : p d = false) :
    (F ++ d :: rest).takeWhile p = F ∧ (F ++ d :: rest).dropWhile p = d :: rest := by
  induction F with
  | nil => simp [List.takeWhile, List.dropWhile, hd]
  | cons c cs ih =>
    have hc : p c = true := hF c (List.mem_cons_self _ _)
    have ih2 := ih (fun x hx => hF x (List.mem_cons_of_mem _ hx))
    simp [List.takeWhile, List.dropWhile, hc, ih2.1, ih2.2]

theorem foldl_set_fragment_links (l : List Str) (ret : PageInfo) :
    (l.foldl set_fragment ret).links = ret.links ∧
      (l.foldl set_fragment ret).errors = ret.errors := by
  induction l generalizing ret with
  | nil => exact ⟨rfl, rfl⟩
  | cons k ks ih =>
    simp only [List.foldl_cons]
    rw [(ih _).1, (ih _).2]
    unfold set_fragment
    split <;> exact ⟨rfl, rfl⟩

theorem foldl_push_error_links (f : Str → Str) (l : List Str) (ret : PageInfo) :
    (l.foldl (fun r m => push_error r (f m)) ret).links = ret.links := by
  induction l generalizing ret with
  | nil => rfl
  | cons k ks ih =>
    simp only [List.foldl_cons]
    rw [ih]
    rfl

/-- The links of the record are those the href loop leaves. -/
theorem load_page_info_links (content R : Str) (ret1 : PageInfo)
    (h : href_loop R { links := [], fragments := [], errors := [] } (href_matches content)
      = .ok ret1) :
    ∃ info, load_page_info content R = .ok info ∧ info.links = ret1.links := by
  unfold load_page_info
  rw [h]
  refine ⟨_, rfl, ?_⟩
  rw [foldl_push_error_links, (foldl_set_fragment_links _ _).1,
    (foldl_set_fragment_links _ _).1]

theorem href_step_skipped (R : Str) (ret : PageInfo) (m : HrefMatch)
    (h : is_skipped m.g1 = true) : href_step R ret m = .ok ret := by
  cases hg : m.g1 with
  | nil =>
    rw [hg] at h
    exact absurd h (by decide)
  | cons c cs =>
    rw [hg] at h
    unfold href_step
    simp only [hg, List.length_cons]
    rw [if_neg (by simp)]
    by_cases h1 : (startsWith (c :: cs) "https://".toList ||
        startsWith (c :: cs) "http://".toList) = true
    · rw [if_pos h1]
    · rw [if_neg h1]
      by_cases h2 : startsWith (c :: cs) "mailto:".toList = true
      · rw [if_pos h2]
      · rw [if_neg h2]
        by_cases h3 : startsWith (c :: cs) "&".toList = true
        · rw [if_pos h3]
        · rw [if_neg h3]
          by_cases h4 : (startsWith (c :: cs) "/css".toList ||
              startsWith (c :: cs) "/assets".toList) = true
          · rw [if_pos h4]
          · unfold is_skipped at h
            simp only [Bool.or_eq_true] at h h1 h4
            tauto

theorem href_loop_skipped (R : Str) (ret : PageInfo) (ms : List HrefMatch)
    (h : ∀ m ∈ ms, is_skipped m.g1 = true) : href_loop R ret ms = .ok ret := by
  induction ms with
  | nil => rfl
  | cons m ms ih =>
    unfold href_loop
    rw [href_step_skipped R ret m (h m (List.mem_cons_self _ _))]
    exact ih (fun x hx => h x (List.mem_cons_of_mem _ hx))

theorem validate_page_no_links (P : Str) (S : PageSet) (info : PageInfo)
    (hP : own S P = some info) (hl : info.links = []) :
    validate_page P S = (info.errors.map (other_line (P.drop 1)), some (!info.errors.isEmpty)) := by
  unfold validate_page
  simp [hP, hl, validate_links, substring]

/-- The text ` href="#F"` holds exactly one match of the href pattern: empty path, fragment `F`. -/
theorem href_matches_self_anchor (F : Str) (hF : ∀ c ∈ F, c ≠ '"' ∧ c ≠ '?') :
    href_matches (" href=\"#".toList ++ F ++ "\"".toList) = [⟨[], some F⟩] := by
  have e : " href=\"#".toList ++ F ++ "\"".toList
      = ' ' :: 'h' :: 'r' :: 'e' :: 'f' :: '=' :: '"' :: '#' :: (F ++ ['"']) := rfl
  rw [e]
  have hfc : ∀ c ∈ F, fragChar c = true := by
    intro c hc
    simp [fragChar, hF c hc]
  have htd := takeWhile_append_stop fragChar F '"' [] hfc (by decide)
  have hm : match_href (' ' :: 'h' :: 'r' :: 'e' :: 'f' :: '=' :: '"' :: '#' :: (F ++ ['"']))
      = some (⟨[], some F⟩, 7 + 0 + 1 + F.length + 0 + 1) := by
    unfold match_href
    have hp : href_lit.isPrefixOf
        (' ' :: 'h' :: 'r' :: 'e' :: 'f' :: '=' :: '"' :: '#' :: (F ++ ['"'])) = true := rfl
    rw [if_pos hp]
    have hd : (' ' :: 'h' :: 'r' :: 'e' :: 'f' :: '=' :: '"' :: '#' :: (F ++ ['"'])).drop
        href_lit.length = '#' :: (F ++ ['"']) := rfl
    have ht : ('#' :: (F ++ ['"'])).takeWhile pathChar = [] := rfl
    have hdw : ('#' :: (F ++ ['"'])).dropWhile pathChar = '#' :: (F ++ ['"']) := rfl
    simp only [hd, ht, hdw, htd.1, htd.2]
    rfl
  unfold href_matches
  simp only [matchAll, hm]
  rw [matchAll_skip_all]
  simp only [List.length_cons, List.length_append, List.length_nil]
  omega

/-! ## The claims -/

/-- C1 (the code departs from it): with the two pages of `two_defective_pages`, both defective, the
second page alone is reported by `validate_page`, yet the run of `main` writes only the line of
the first page: once `rc` is true, `rc ||= validate_page(...)` no longer calls `validate_page`. -/
theorem main_stops_validating_after_first_defect :
    load_pages [] two_defective_pages = .ok
      [("/en/a.html".toList,
        { links := [], fragments := [], errors := ["Incorrect markdown link: x][y".toList] }),
       ("/en/b.html".toList,
        { links := [("/en/missing.html".toList, none)], fragments := [], errors := [] })] ∧
    (∀ S, load_pages [] two_defective_pages = .ok S →
      validate_page "/en/b.html".toList S =
        (["::error file=en/b.html::Broken internal link from en/b.html -> /en/missing.html".toList],
          some true)) ∧
    main two_defective_pages false =
      (["::error file=en/a.html::Incorrect markdown link: x][y".toList], some 1) := by
  refine ⟨rfl, ?_, rfl⟩
  intro S hS
  have h : load_pages [] two_defective_pages = .ok
      [("/en/a.html".toList,
        { links := [], fragments := [], errors := ["Incorrect markdown link: x][y".toList] }),
       ("/en/b.html".toList,
        { links := [("/en/missing.html".toList, none)], fragments := [], errors := [] })] := rfl
  rw [h] at hS
  cases hS
  rfl

/-- C2: for a page `P` of the Page Set `S` whose links are Page Paths, every link `(T, F)` of `P`
whose target `T` is not a key of `S` makes `validate_page P S` write the line
`::error file=<P minus its first code unit>::Broken internal link from <same> -> T` and return
`true`. -/
theorem validate_page_reports_missing_target (S : PageSet) (P : Str) (info : PageInfo)
    (T : Str) (F : Option Str)
    (hP : own S P = some info) (hpaths : ∀ l ∈ info.links, isPagePath l.1)
    (hl : (T, F) ∈ info.links) (hT : T ∉ keys S) :
    ("::error file=".toList ++ P.drop 1 ++ "::Broken internal link from ".toList ++ P.drop 1 ++
        " -> ".toList ++ T) ∈ (validate_page P S).1 ∧
      (validate_page P S).2 = some true := by
  have hown : own S T = none := (own_eq_none_iff S T).mpr hT
  have hout : link_out (P.drop 1) S (T, F) = some (broken_link_line (P.drop 1) T) := by
    unfold link_out check_link
    rw [in_pages_of_pagePath S (hpaths _ hl), hown]
    rfl
  have hmem : broken_link_line (P.drop 1) T ∈ info.links.filterMap (link_out (P.drop 1) S) :=
    List.mem_filterMap.mpr ⟨(T, F), hl, hout⟩
  rw [validate_page_ok P S info hP hpaths]
  constructor
  · exact List.mem_append_left _ hmem
  · have hne : (info.links.filterMap (link_out (P.drop 1) S)).isEmpty = false := by
      cases hq : info.links.filterMap (link_out (P.drop 1) S) with
      | nil => rw [hq] at hmem; cases hmem
      | cons a b => rfl
    rw [hne]
    rfl

/-- Witness of C2 on `missing_target_set`. -/
theorem validate_page_reports_missing_target_witness :
    "::error file=en/a.html::Broken internal link from en/a.html -> /en/missing.html".toList ∈
        (validate_page "/en/a.html".toList missing_target_set).1 ∧
      (validate_page "/en/a.html".toList missing_target_set).2 = some true :=
  validate_page_reports_missing_target missing_target_set "/en/a.html".toList
    { links := [("/en/missing.html".toList, none)], fragments := [], errors := [] }
    "/en/missing.html".toList none rfl (by decide) (by decide) (by decide)

/-- C3 (the code departs from it): page `/en/a.html` links to `/en/b.html#constructor`; page
`/en/b.html` defines only the fragment `intro`, so `constructor` was captured from no `id` or
`name` attribute; yet the run writes nothing and exits with status 0, because
`"constructor" in fragments` is answered by the property inherited from `Object.prototype`. -/
theorem inherited_name_passes_as_fragment :
    load_pages [] constructor_fragment_pages = .ok
      [("/en/a.html".toList,
        { links := [("/en/b.html".toList, some "constructor".toList)], fragments := [],
          errors := [] }),
       ("/en/b.html".toList,
        { links := [], fragments := ["intro".toList], errors := [] })] ∧
    "constructor".toList ∉ ["intro".toList] ∧
    main constructor_fragment_pages false = ([], some 0) :=
  ⟨rfl, by decide, rfl⟩

/-- C4 (the code departs from it): for every page path, the scan of the text ` href=""` and of the
text ` href="?x=1"` ends in a `TypeError` (`match[3]` is `undefined` and its `length` is read)
instead of returning a page record. -/
theorem load_page_info_throws_on_empty_path (R : Str) :
    load_page_info " href=\"\"".toList R = .error .typeError ∧
      load_page_info " href=\"?x=1\"".toList R = .error .typeError :=
  ⟨rfl, rfl⟩

/-- C5: for a Page Set whose links are Page Paths and either value of the flag, the run exits with
status 1 exactly when `validate_page` returns `true` for some page in scope (every page when the
flag is unset, the pages under `/en/docs` when it is set), and with status 0 exactly when it does
for none. -/
theorem main_exit_status (S : PageSet) (only_docs : Bool) (hS : links_are_paths S) :
    ((main_validate S only_docs).2 = some 1 ↔
        ∃ P ∈ keys S, (only_docs = true → startsWith P "/en/docs".toList = true) ∧
          (validate_page P S).2 = some true) ∧
      ((main_validate S only_docs).2 = some 0 ↔
        ¬ ∃ P ∈ keys S, (only_docs = true → startsWith P "/en/docs".toList = true) ∧
          (validate_page P S).2 = some true) := by
  have hres := main_loop_result S only_docs (keys S) false
    (fun P hP => validate_page_returns S hS hP)
  have hscope : ∀ P, in_scope only_docs P = true ↔
      (only_docs = true → startsWith P "/en/docs".toList = true) := by
    intro P
    unfold in_scope
    cases only_docs <;> cases startsWith P "/en/docs".toList <;> simp
  have hany : (keys S).any (fun P => in_scope only_docs P &&
      ((validate_page P S).2 == some true)) = true ↔
      ∃ P ∈ keys S, (only_docs = true → startsWith P "/en/docs".toList = true) ∧
          (validate_page P S).2 = some true := by
    rw [List.any_eq_true]
    constructor
    · rintro ⟨P, hP, h⟩
      rw [Bool.and_eq_true, hscope, beq_iff_eq] at h
      exact ⟨P, hP, h⟩
    · rintro ⟨P, hP, h⟩
      refine ⟨P, hP, ?_⟩
      rw [Bool.and_eq_true, hscope, beq_iff_eq]
      exact h
  rw [← hany]
  unfold main_validate
  cases hv : main_loop S only_docs (keys S) false with
  | mk out res =>
    rw [hv] at hres
    simp only at hres
    subst hres
    simp only [Bool.false_or]
    cases (keys S).any (fun P => in_scope only_docs P &&
      ((validate_page P S).2 == some true)) <;> simp

/-- Witness of C5 on `docs_and_outside_set` with the flag set: the only defective page is out of
scope. -/
theorem main_exit_status_witness :
    links_are_paths docs_and_outside_set ∧
    (((main_validate docs_and_outside_set true).2 = some 1 ↔
        ∃ P ∈ keys docs_and_outside_set, (true = true → startsWith P "/en/docs".toList = true) ∧
          (validate_page P docs_and_outside_set).2 = some true) ∧
      ((main_validate docs_and_outside_set true).2 = some 0 ↔
        ¬ ∃ P ∈ keys docs_and_outside_set, (true = true → startsWith P "/en/docs".toList = true) ∧
          (validate_page P docs_and_outside_set).2 = some true)) :=
  ⟨by decide, main_exit_status docs_and_outside_set true (by decide)⟩

/-- C6: with the flag set, (a) every line the run writes was written by `validate_page` for a page
whose path starts with `/en/docs` and names that page as its file; (b) when `validate_page`
returns `false` for every page under `/en/docs`, the run writes nothing and exits with status 0,
whatever the other pages hold; (c) checking, for any source page, a link to a page `Q` of the Page
Set, with no fragment or a fragment among those of `Q`, writes no line, wherever `Q` lies. -/
theorem only_docs_scope (S : PageSet) :
    (∀ line ∈ (main_validate S true).1,
      ∃ P ∈ keys S, startsWith P "/en/docs".toList = true ∧ line ∈ (validate_page P S).1 ∧
        ("::error file=".toList ++ P.drop 1 ++ "::".toList) <+: line) ∧
    ((∀ P ∈ keys S, startsWith P "/en/docs".toList = true →
        (validate_page P S).2 = some false) →
      main_validate S true = ([], some 0)) ∧
    (∀ (P Q : Str) (qinfo : PageInfo) (f : Option Str), own S Q = some qinfo →
      (f = none ∨ ∃ F, f = some F ∧ F ∈ qinfo.fragments) →
      check_link (P.drop 1) S (Q, f) = .ok none) := by
  refine ⟨?_, ?_, ?_⟩
  · intro line hline
    have hout : (main_validate S true).1 = (main_loop S true (keys S) false).1 := by
      unfold main_validate
      cases main_loop S true (keys S) false with
      | mk out res => cases res <;> rfl
    rw [hout] at hline
    obtain ⟨P, hP, hin, hmem⟩ := main_loop_out S true (keys S) false line hline
    refine ⟨P, hP, ?_, hmem, validate_page_prefix P S line hmem⟩
    unfold in_scope at hin
    cases hs : startsWith P "/en/docs".toList with
    | true => rfl
    | false => rw [hs] at hin; cases hin
  · intro h
    have hloop : ∀ ks : List Str, (∀ P ∈ ks, P ∈ keys S) →
        main_loop S true ks false = ([], some false) := by
      intro ks
      induction ks with
      | nil => intro _; rfl
      | cons P ks ih =>
        intro hks
        have ih2 := ih (fun x hx => hks x (List.mem_cons_of_mem _ hx))
        unfold main_loop
        cases hs : startsWith P "/en/docs".toList with
        | false => simpa using ih2
        | true =>
          have hv := validate_page_false P S (h P (hks P (List.mem_cons_self _ _)) hs)
          simp [hv, ih2]
    unfold main_validate
    rw [hloop (keys S) (fun _ hP => hP)]
    rfl
  · intro P Q qinfo f hQ hf
    have hin : in_pages Q S = true := by
      unfold in_pages
      rw [hQ]
      rfl
    unfold check_link
    simp only [hin]
    rcases hf with rfl | ⟨F, rfl, hF⟩
    · rfl
    · have hfr : in_fragments F qinfo = true := by
        unfold in_fragments
        rw [Bool.or_eq_true]
        exact Or.inl (by simpa using hF)
      simp [hQ, hfr]

/-- Witness of C6 on `docs_and_outside_set`: the page outside `/en/docs` has two defects, the page
under it links to that page, with and without a fragment. -/
theorem only_docs_scope_witness :
    (validate_page "/en/index.html".toList docs_and_outside_set).2 = some true ∧
    main_validate docs_and_outside_set true = ([], some 0) ∧
    check_link "en/docs/a.html".toList docs_and_outside_set
      ("/en/index.html".toList, some "top".toList) = .ok none :=
  ⟨rfl,
   (only_docs_scope docs_and_outside_set).2.1 (by decide),
   (only_docs_scope docs_and_outside_set).2.2 "/en/docs/a.html".toList "/en/index.html".toList
     { links := [("/en/nowhere.html".toList, none)], fragments := ["top".toList],
       errors := ["Incorrect markdown link: a][b".toList] }
     (some "top".toList) rfl (Or.inr ⟨"top".toList, rfl, by decide⟩)⟩

theorem needs_html_eq (p : Str) :
    needs_html p = (!endsWith p ".html".toList &&
      (includes p "getting-started".toList || includes p "packages".toList)) := by
  simp [needs_html, subUrls, List.any]

/-- C7: a match of the href pattern whose path part starts with `https://`, `http://`, `mailto:`,
`&`, `/css` or `/assets` leaves the record untouched (no link, no error entry); hence a text all of
whose hrefs are of these kinds loads into a record with no link, and `validate_page` writes for
that page only the lines of its `errors` entries. -/
theorem skipped_hrefs_add_nothing :
    (∀ (R : Str) (ret : PageInfo) (m : HrefMatch), is_skipped m.g1 = true →
      href_step R ret m = .ok ret) ∧
    (∀ (content R : Str), (∀ m ∈ href_matches content, is_skipped m.g1 = true) →
      ∃ info, load_page_info content R = .ok info ∧ info.links = [] ∧
        ∀ (S : PageSet) (P : Str), own S P = some info →
          validate_page P S =
            (info.errors.map (fun other => "::error file=".toList ++ P.drop 1 ++ "::".toList ++ other),
              some (!info.errors.isEmpty))) := by
  refine ⟨href_step_skipped, ?_⟩
  intro content R h
  obtain ⟨info, hinfo, hlinks⟩ := load_page_info_links content R _
    (href_loop_skipped R { links := [], fragments := [], errors := [] } (href_matches content) h)
  refine ⟨info, hinfo, hlinks, ?_⟩
  intro S P hP
  exact validate_page_no_links P S info hP hlinks

/-- Witness of C7: a text whose three hrefs are an external link, a mail address and a stylesheet,
with a markdown artifact next to them. -/
theorem skipped_hrefs_add_nothing_witness :
    (∀ m ∈ href_matches
        "<a href=\"https://x.org/a#b\"> <a href=\"mailto:a@b\"> <link href=\"/css/s.css\"> p][q".toList,
      is_skipped m.g1 = true) ∧
    ∃ info, load_page_info
        "<a href=\"https://x.org/a#b\"> <a href=\"mailto:a@b\"> <link href=\"/css/s.css\"> p][q".toList
        "/en/a.html".toList = .ok info ∧ info.links = [] ∧
      ∀ (S : PageSet) (P : Str), own S P = some info →
        validate_page P S =
          (info.errors.map (fun other => "::error file=".toList ++ P.drop 1 ++ "::".toList ++ other),
            some (!info.errors.isEmpty)) :=
  ⟨by decide, skipped_hrefs_add_nothing.2 _ _ (by decide)⟩

/-- C8: for every page path `R` and every non-empty fragment `F` without `"` and `?`, the text
` href="#F"` loads into a record whose links are exactly `[(R + ".html", F)]` when `R` does not end
with `.html` and contains `getting-started` or `packages`, and `[(R, F)]` otherwise; when `R` ends
with `.html` the link is `(R, F)`, and checking it against a Page Set that holds `R` is decided by
the fragments of `R` itself. -/
theorem self_anchor_link (R F : Str) (hne : F ≠ []) (hF : ∀ c ∈ F, c ≠ '"' ∧ c ≠ '?') :
    (∃ info, load_page_info (" href=\"#".toList ++ F ++ "\"".toList) R = .ok info ∧
      info.links =
        [(if (!endsWith R ".html".toList &&
              (includes R "getting-started".toList || includes R "packages".toList)) = true
            then R ++ ".html".toList else R, some F)]) ∧
    (endsWith R ".html".toList = true →
      (∃ info, load_page_info (" href=\"#".toList ++ F ++ "\"".toList) R = .ok info ∧
        info.links = [(R, some F)]) ∧
      ∀ (S : PageSet) (own_info : PageInfo) (relpath : Str), own S R = some own_info →
        check_link relpath S (R, some F) =
          .ok (if in_fragments F own_info = true then none
            else some ("::error file=".toList ++ relpath ++ "::Broken fragment link from ".toList ++
              relpath ++ " -> ".toList ++ R ++ "#".toList ++ F))) := by
  have hlen : F.length > 0 := List.length_pos.mpr hne
  have hloop : href_loop R { links := [], fragments := [], errors := [] }
      (href_matches (" href=\"#".toList ++ F ++ "\"".toList)) =
      .ok { links := [(if (!endsWith R ".html".toList &&
              (includes R "getting-started".toList || includes R "packages".toList)) = true
            then R ++ ".html".toList else R, some F)], fragments := [], errors := [] } := by
    rw [href_matches_self_anchor F hF]
    unfold href_loop href_step
    simp only [List.length_nil, beq_self_eq_true, if_true, hlen]
    rw [needs_html_eq]
    by_cases hc : (!endsWith R ".html".toList &&
        (includes R "getting-started".toList || includes R "packages".toList)) = true
    · rw [if_pos hc, if_pos hc]
      rfl
    · rw [if_neg hc, if_neg hc]
      rfl
  obtain ⟨info, hinfo, hlinks⟩ := load_page_info_links _ R _ hloop
  refine ⟨⟨info, hinfo, hlinks⟩, ?_⟩
  intro hends
  refine ⟨⟨info, hinfo, ?_⟩, ?_⟩
  · rw [hlinks, hends]
    rfl
  · intro S own_info relpath hown
    have hin : in_pages R S = true := by
      unfold in_pages
      rw [hown]
      rfl
    unfold check_link
    simp only [hin, hown]
    cases in_fragments F own_info <;> rfl

/-- Witness of C8 on the page `/en/docs/a.html` and the fragment `top`. -/
theorem self_anchor_link_witness :
    "top".toList ≠ [] ∧
    ∃ info, load_page_info " href=\"#top\"".toList "/en/docs/a.html".toList = .ok info ∧
      info.links = [("/en/docs/a.html".toList, some "top".toList)] :=
  ⟨by decide,
   ((self_anchor_link "/en/docs/a.html".toList "top".toList (by decide) (by decide)).2 rfl).1⟩

/-- C9 (the code departs from it): on the page `/en/index.html` the href `../index.html` resolves
to `//index.html`, while the root-relative href `/index.html` of the same file resolves to
`/index.html`; and on the page `/en/packages/x/a.html` the href `../foo` resolves to
`/en/packages/foo`, while the root-relative href `/en/packages/foo` resolves to
`/en/packages/foo.html`. -/
theorem dotdot_and_root_relative_disagree :
    (load_page_info " href=\"../index.html\"".toList "/en/index.html".toList =
        .ok { links := [("//index.html".toList, none)], fragments := [], errors := [] } ∧
      load_page_info " href=\"/index.html\"".toList "/en/index.html".toList =
        .ok { links := [("/index.html".toList, none)], fragments := [], errors := [] }) ∧
    (load_page_info " href=\"../foo\"".toList "/en/packages/x/a.html".toList =
        .ok { links := [("/en/packages/foo".toList, none)], fragments := [], errors := [] } ∧
      load_page_info " href=\"/en/packages/foo\"".toList "/en/packages/x/a.html".toList =
        .ok { links := [("/en/packages/foo.html".toList, none)], fragments := [], errors := [] }) :=
  ⟨⟨rfl, rfl⟩, ⟨rfl, rfl⟩⟩

/-- C10: for a list of (page path, record) pairs with distinct paths whose links are Page Paths,
and every permutation of it, the two Page Sets give the same exit status for either value of the
flag, the same lines and return value of `validate_page` for every page, and the same outcome for
the check of every link, so a link to a page discovered later resolves as if it came first. -/
theorem page_set_order_irrelevant (records permuted : List (Str × PageInfo))
    (hperm : records.Perm permuted) (hnodup : (keys records).Nodup)
    (hpaths : links_are_paths records) (only_docs : Bool) :
    (main_validate (build_pages_info permuted) only_docs).2 =
        (main_validate (build_pages_info records) only_docs).2 ∧
      (∀ P, validate_page P (build_pages_info permuted) =
        validate_page P (build_pages_info records)) ∧
      (∀ relpath link, check_link relpath (build_pages_info permuted) link =
        check_link relpath (build_pages_info records) link) := by
  have hnodup2 : (keys permuted).Nodup := (hperm.map Prod.fst).nodup_iff.mp hnodup
  have hpaths2 : links_are_paths permuted := fun kv hkv => hpaths kv (hperm.mem_iff.mpr hkv)
  rw [build_pages_info_nodup records hnodup, build_pages_info_nodup permuted hnodup2]
  have hown := fun k => own_perm hperm hnodup k
  have hvp := fun P => validate_page_congr hown P
  refine ⟨?_, hvp, fun relpath link => check_link_congr hown relpath link⟩
  have h1 := main_loop_result records only_docs (keys records) false
    (fun P hP => validate_page_returns records hpaths hP)
  have h2 := main_loop_result permuted only_docs (keys permuted) false
    (fun P hP => validate_page_returns permuted hpaths2 hP)
  have hany : (keys permuted).any (fun P => in_scope only_docs P &&
        ((validate_page P permuted).2 == some true)) =
      (keys records).any (fun P => in_scope only_docs P &&
        ((validate_page P records).2 == some true)) := by
    have hfun : (fun P => in_scope only_docs P && ((validate_page P permuted).2 == some true)) =
        (fun P => in_scope only_docs P && ((validate_page P records).2 == some true)) := by
      funext P
      rw [hvp]
    rw [hfun, Bool.eq_iff_iff, List.any_eq_true, List.any_eq_true]
    constructor
    · rintro ⟨P, hP, h⟩
      exact ⟨P, (hperm.map Prod.fst).mem_iff.mpr hP, h⟩
    · rintro ⟨P, hP, h⟩
      exact ⟨P, (hperm.map Prod.fst).mem_iff.mp hP, h⟩
  rw [hany] at h2
  unfold main_validate
  cases hv1 : main_loop records only_docs (keys records) false with
  | mk out1 res1 =>
    cases hv2 : main_loop permuted only_docs (keys permuted) false with
    | mk out2 res2 =>
      rw [hv1] at h1
      rw [hv2] at h2
      simp only at h1 h2
      subst h1
      subst h2
      rfl

/-- Witness of C10: the two pages of `docs_and_outside_set`, swapped. -/
theorem page_set_order_irrelevant_witness :
    (keys docs_and_outside_set).Nodup ∧ links_are_paths docs_and_outside_set ∧
    (main_validate (build_pages_info docs_and_outside_set.reverse) false).2 =
        (main_validate (build_pages_info docs_and_outside_set) false).2 ∧
      (∀ P, validate_page P (build_pages_info docs_and_outside_set.reverse) =
        validate_page P (build_pages_info docs_and_outside_set)) ∧
      (∀ relpath link, check_link relpath (build_pages_info docs_and_outside_set.reverse) link =
        check_link relpath (build_pages_info docs_and_outside_set) link) :=
  ⟨by decide, by decide,
   page_set_order_irrelevant docs_and_outside_set docs_and_outside_set.reverse
     (List.reverse_perm _).symm (by decide) (by decide) false⟩

/-! ## Lemmas: substrings and `matchAll` -/

theorem includes_iff (s sub : Str) : includes s sub = true ↔ sub <:+: s := by
  induction s with
  | nil =>
    cases sub with
    | nil => simp [includes]
    | cons c cs => simp [includes]
  | cons c cs ih =>
    unfold includes
    rw [Bool.or_eq_true, ih, List.infix_cons_iff, List.isPrefixOf_iff_prefix]

theorem matchAll_mem {α : Type} (m : Str → Option (α × Nat)) (s : Str) (k : Nat) (a : α)
    (h : a ∈ matchAll m k s) : ∃ t n, t <:+ s ∧ m t = some (a, n) := by
  induction s generalizing k with
  | nil => cases k <;> simp [matchAll] at h
  | cons c cs ih =>
    have lift : (∃ t n, t <:+ cs ∧ m t = some (a, n)) →
        ∃ t n, t <:+ c :: cs ∧ m t = some (a, n) := by
      rintro ⟨t, n, ht, hm⟩
      exact ⟨t, n, ht.trans (List.suffix_cons c cs), hm⟩
    cases k with
    | succ k =>
      simp only [matchAll] at h
      exact lift (ih k h)
    | zero =>
      simp only [matchAll] at h
      cases hm : m (c :: cs) with
      | none =>
        rw [hm] at h
        exact lift (ih 0 h)
      | some an =>
        obtain ⟨a0, n⟩ := an
        rw [hm] at h
        simp only [List.mem_cons] at h
        rcases h with rfl | h
        · exact ⟨c :: cs, n, List.suffix_refl _, hm⟩
        · exact lift (ih _ h)

theorem matchAll_skip {α : Type} (m : Str → Option (α × Nat)) (s : Str) (k : Nat) :
    matchAll m k s = matchAll m 0 (s.drop k) := by
  induction s generalizing k with
  | nil => cases k <;> rfl
  | cons c cs ih =>
    cases k with
    | zero => rfl
    | succ k =>
      simp only [matchAll, List.drop_succ_cons]
      exact ih k

theorem matchAll_head {α : Type} (m : Str → Option (α × Nat)) (s : Str) (a : α) (n : Nat)
    (hm : m s = some (a, n)) (hs : s ≠ []) (hn : 1 ≤ n) :
    matchAll m 0 s = a :: matchAll m 0 (s.drop n) := by
  cases s with
  | nil => exact absurd rfl hs
  | cons c cs =>
    simp only [matchAll, hm]
    rw [matchAll_skip]
    obtain ⟨n1, rfl⟩ : ∃ n1, n = n1 + 1 := ⟨n - 1, by omega⟩
    rfl

theorem matchAll_first {α : Type} (m : Str → Option (α × Nat)) (pre rest : Str)
    (h : ∀ i < pre.length, m (pre.drop i ++ rest) = none) :
    matchAll m 0 (pre ++ rest) = matchAll m 0 rest := by
  induction pre with
  | nil => rfl
  | cons c cs ih =>
    have h0 := h 0 (by simp)
    simp only [List.drop_zero] at h0
    simp only [List.cons_append] at h0 ⊢
    simp only [matchAll, h0]
    apply ih
    intro i hi
    have := h (i + 1) (by simpa using hi)
    simpa using this

theorem match_href_unfold (X : Str) :
    match_href (href_lit ++ X) =
      (match X.dropWhile pathChar with
      | '#' :: t =>
        match (t.dropWhile fragChar).dropWhile notQuote with
        | '"' :: _ =>
          some (⟨X.takeWhile pathChar, some (t.takeWhile fragChar)⟩,
            href_lit.length + (X.takeWhile pathChar).length + 1 + (t.takeWhile fragChar).length +
              ((t.dropWhile fragChar).takeWhile notQuote).length + 1)
        | _ => none
      | _ =>
        match (X.dropWhile pathChar).dropWhile notQuote with
        | '"' :: _ =>
          some (⟨X.takeWhile pathChar, none⟩,
            href_lit.length + (X.takeWhile pathChar).length +
              ((X.dropWhile pathChar).takeWhile notQuote).length + 1)
        | _ => none) := by
  unfold match_href
  have hpre : href_lit.isPrefixOf (href_lit ++ X) = true := by
    rw [List.isPrefixOf_iff_prefix]
    exact List.prefix_append _ _
  rw [if_pos hpre]
  simp only [List.drop_left]

theorem match_href_value (p : Str) (frag : Option Str) (q rest : Str)
    (hp : ∀ c ∈ p, pathChar c = true) (hf : ∀ f, frag = some f → ∀ c ∈ f, fragChar c = true)
    (hq : ∀ c ∈ q, notQuote c = true) (hq0 : q = [] ∨ q.head? = some '?') :
    match_href (href_lit ++ (href_value p frag q ++ '"' :: rest)) =
      some (⟨p, frag⟩, href_lit.length + (href_value p frag q).length + 1) := by
  rw [match_href_unfold]
  have hqs := takeWhile_append_stop notQuote q '"' rest hq (by decide)
  cases frag with
  | none =>
    have hX : href_value p none q ++ '"' :: rest = p ++ (q ++ '"' :: rest) := by
      simp [href_value]
    rw [hX]
    rcases hq0 with rfl | hq0
    · have hps := takeWhile_append_stop pathChar p '"' rest hp (by decide)
      simp only [List.nil_append] at hps ⊢
      rw [hps.1, hps.2]
      simp [href_value, notQuote, List.dropWhile, List.takeWhile]
    · cases q with
      | nil => simp at hq0
      | cons c q1 =>
        simp only [List.head?_cons, Option.some.injEq] at hq0
        subst hq0
        have hps := takeWhile_append_stop pathChar p '?' (q1 ++ '"' :: rest) hp (by decide)
        simp only [List.cons_append] at hps hqs ⊢
        rw [hps.1, hps.2, hqs.1, hqs.2]
        simp [href_value]
        omega
  | some f =>
    have hX : href_value p (some f) q ++ '"' :: rest = p ++ '#' :: (f ++ (q ++ '"' :: rest)) := by
      simp [href_value]
    rw [hX]
    have hps := takeWhile_append_stop pathChar p '#' (f ++ (q ++ '"' :: rest)) hp (by decide)
    rw [hps.1, hps.2]
    have hfc := hf f rfl
    simp only
    rcases hq0 with rfl | hq0
    · have hfs := takeWhile_append_stop fragChar f '"' rest hfc (by decide)
      simp only [List.nil_append] at hfs ⊢
      rw [hfs.1, hfs.2]
      simp [href_value, notQuote, List.dropWhile, List.takeWhile]
      omega
    · cases q with
      | nil => simp at hq0
      | cons c q1 =>
        simp only [List.head?_cons, Option.some.injEq] at hq0
        subst hq0
        have hfs := takeWhile_append_stop fragChar f '?' (q1 ++ '"' :: rest) hfc (by decide)
        simp only [List.cons_append] at hfs hqs ⊢
        rw [hfs.1, hfs.2, hqs.1, hqs.2]
        simp [href_value]
        omega

theorem href_matches_value (p : Str) (frag : Option Str) (q : Str)
    (hp : ∀ c ∈ p, pathChar c = true) (hf : ∀ f, frag = some f → ∀ c ∈ f, fragChar c = true)
    (hq : ∀ c ∈ q, notQuote c = true) (hq0 : q = [] ∨ q.head? = some '?') :
    href_matches (href_lit ++ (href_value p frag q ++ ['"'])) = [⟨p, frag⟩] := by
  unfold href_matches
  have hne : href_lit ++ (href_value p frag q ++ ['"']) ≠ [] := by
    intro h
    have h2 := congrArg List.length h
    simp at h2
  rw [matchAll_head match_href _ _ _ (match_href_value p frag q [] hp hf hq hq0) hne (by omega)]
  rw [List.drop_of_length_le]
  · rfl
  · simp only [List.length_append, List.length_cons, List.length_nil]
    omega

/-! ## Lemmas: the loop body -/

theorem is_skipped_false {p : Str} (h : is_skipped p = false) :
    (startsWith p "https://".toList || startsWith p "http://".toList) = false ∧
      startsWith p "mailto:".toList = false ∧ startsWith p "&".toList = false ∧
      (startsWith p "/css".toList || startsWith p "/assets".toList) = false := by
  unfold is_skipped at h
  simp only [Bool.or_eq_false_iff] at h ⊢
  tauto

/-- A path part that is neither empty nor skipped pushes exactly one link, with the fragment of the
match. -/
theorem href_step_link (R : Str) (ret : PageInfo) (p : Str) (g3 : Option Str)
    (hne : p ≠ []) (hskip : is_skipped p = false) :
    href_step R ret ⟨p, g3⟩ = .ok (push_link ret (link_target R p, g3)) := by
  obtain ⟨h1, h2, h3, h4⟩ := is_skipped_false hskip
  have hlen : (p.length == 0) = false := by
    cases p with
    | nil => exact absurd rfl hne
    | cons c cs => rfl
  unfold href_step link_target
  simp only [hlen, h1, h2, h3, h4, Bool.false_eq_true, if_false]
  cases hr : startsWith p "/".toList with
  | true =>
    simp only [if_true]
    cases hh : needs_html p with
    | true => simp only [if_true]
    | false => simp only [Bool.false_eq_true, if_false]
  | false =>
    simp only [Bool.false_eq_true, if_false]
    cases hh : needs_html (strip_dotdot (dirname R) p).2 with
    | true => simp only [if_true]
    | false => simp only [Bool.false_eq_true, if_false]

theorem foldl_push_error_fragments (f : Str → Str) (l : List Str) (ret : PageInfo) :
    (l.foldl (fun r m => push_error r (f m)) ret).fragments = ret.fragments ∧
      (l.foldl (fun r m => push_error r (f m)) ret).errors = ret.errors ++ l.map f := by
  induction l generalizing ret with
  | nil => simp
  | cons k ks ih =>
    simp only [List.foldl_cons]
    rw [(ih _).1, (ih _).2]
    simp [push_error]

/-- The text made of one href with a path part that is neither empty nor skipped loads into a
record with exactly one link. -/
theorem load_single_href (R p : Str) (frag : Option Str) (q : Str)
    (hp : ∀ c ∈ p, pathChar c = true) (hf : ∀ f, frag = some f → ∀ c ∈ f, fragChar c = true)
    (hq : ∀ c ∈ q, notQuote c = true) (hq0 : q = [] ∨ q.head? = some '?')
    (hne : p ≠ []) (hskip : is_skipped p = false) :
    ∃ info, load_page_info (href_lit ++ (href_value p frag q ++ ['"'])) R = .ok info ∧
      info.links = [(link_target R p, frag)] := by
  have hloop : href_loop R { links := [], fragments := [], errors := [] }
      (href_matches (href_lit ++ (href_value p frag q ++ ['"']))) =
      .ok { links := [(link_target R p, frag)], fragments := [], errors := [] } := by
    rw [href_matches_value p frag q hp hf hq hq0]
    unfold href_loop
    rw [href_step_link R _ p frag hne hskip]
    rfl
  exact load_page_info_links _ R _ hloop

theorem strip_dotdot_stop (dir s : Str) (hs : startsWith s "../".toList = false) :
    strip_dotdot dir s = (dir, s) ∧ dotdot_iterations s = 0 := by
  constructor
  · unfold strip_dotdot
    split
    · rename_i rest
      exact absurd hs (by simp [startsWith])
    · rfl
  · unfold dotdot_iterations
    split
    · rename_i rest
      exact absurd hs (by simp [startsWith])
    · rfl

theorem strip_dotdot_dotdots (dir s : Str) (k : Nat) (hs : startsWith s "../".toList = false) :
    strip_dotdot dir (dotdots k ++ s) = (dirname^[k] dir, s) ∧
      dotdot_iterations (dotdots k ++ s) = k := by
  induction k generalizing dir with
  | zero => exact strip_dotdot_stop dir s hs
  | succ k ih =>
    have e : dotdots (k + 1) ++ s = '.' :: '.' :: '/' :: (dotdots k ++ s) := rfl
    rw [e]
    constructor
    · rw [strip_dotdot, (ih (dirname dir)).1, Function.iterate_succ_apply]
    · rw [dotdot_iterations, (ih dir).2]

/-! ## Lemmas: `dirname` -/

theorem dirname_end_pos (path : Str) (n : Nat) (ms : Bool) (e : Nat)
    (h : dirname_end path n ms = some e) : 1 ≤ e := by
  induction n generalizing ms with
  | zero => simp [dirname_end] at h
  | succ i ih =>
    unfold dirname_end at h
    split at h
    · split at h
      · simp only [Option.some.injEq] at h
        omega
      · exact ih _ h
    · exact ih _ h

theorem dirname_pagePath {R : Str} (h : isPagePath R) : isPagePath (dirname R) := by
  cases R with
  | nil => simp [isPagePath] at h
  | cons c rest =>
    simp only [isPagePath, List.head?_cons, Option.some.injEq] at h
    subst h
    unfold dirname
    have hlen : (('/' :: rest).length == 0) = false := rfl
    have hroot : (('/' :: rest).getD 0 ' ' == '/') = true := rfl
    simp only [hlen, hroot, Bool.false_eq_true, if_false, if_true, Bool.true_and]
    cases he : dirname_end ('/' :: rest) (('/' :: rest).length - 1) true with
    | none => rfl
    | some e =>
      simp only
      split
      · rfl
      · obtain ⟨e1, rfl⟩ : ∃ e1, e = e1 + 1 := ⟨e - 1, by
          have := dirname_end_pos _ _ _ _ he
          omega⟩
        rfl

theorem dirname_iterate_pagePath {R : Str} (h : isPagePath R) (k : Nat) :
    isPagePath (dirname^[k] R) := by
  induction k generalizing R with
  | zero => exact h
  | succ k ih =>
    rw [Function.iterate_succ_apply]
    exact ih (dirname_pagePath h)

theorem getD_mem_or_default (f : Str) (i : Nat) (hi : i < f.length) : f.getD i ' ' ∈ f := by
  rw [List.getD_eq_getElem _ _ hi]
  exact List.getElem_mem _

theorem dirname_end_append (D f : Str) (hD : D ≠ []) (hf : '/' ∉ f) (m : Nat)
    (hm : m < f.length) (ms : Bool) :
    dirname_end (D ++ '/' :: f) (D.length + (m + 1)) ms = some D.length := by
  have hidx : ∀ i, i < f.length → ((D ++ '/' :: f).getD (D.length + (i + 1)) ' ' == '/') = false := by
    intro i hi
    have e : (D ++ '/' :: f).getD (D.length + (i + 1)) ' ' = f.getD i ' ' := by
      rw [List.getD_append_right _ _ _ _ (by omega)]
      have : D.length + (i + 1) - D.length = i + 1 := by omega
      rw [this]
      rfl
    rw [e]
    have hmem := getD_mem_or_default f i hi
    cases hb : (f.getD i ' ' == '/') with
    | false => rfl
    | true =>
      rw [beq_iff_eq] at hb
      rw [hb] at hmem
      exact absurd hmem hf
  have hslash : ((D ++ '/' :: f).getD D.length ' ' == '/') = true := by
    rw [List.getD_append_right _ _ _ _ (Nat.le_refl _)]
    simp
  induction m generalizing ms with
  | zero =>
    have e1 : D.length + (0 + 1) = D.length + 1 := rfl
    rw [e1, dirname_end]
    have h0 := hidx 0 hm
    rw [e1] at h0
    simp only [h0, Bool.false_eq_true, if_false]
    obtain ⟨d, hd⟩ : ∃ d, D.length = d + 1 := by
      cases D with
      | nil => exact absurd rfl hD
      | cons c cs => exact ⟨cs.length, rfl⟩
    rw [hd] at hslash ⊢
    rw [dirname_end]
    simp only [hslash, if_true, Bool.not_false]
  | succ m ih =>
    have e1 : D.length + (m + 1 + 1) = (D.length + (m + 1)) + 1 := rfl
    rw [e1, dirname_end]
    have h0 := hidx (m + 1) hm
    rw [e1] at h0
    simp only [h0, Bool.false_eq_true, if_false]
    exact ih (by omega) false

/-- The directory of the page `D/f` is `D`, for a directory path `D` that is not empty and does
not end with the separator, and a file name `f`. -/
theorem dirname_append (D f : Str) (hD : D ≠ []) (hlast : D.getLast? ≠ some '/')
    (hf : f ≠ []) (hfs : '/' ∉ f) : dirname (D ++ '/' :: f) = D := by
  obtain ⟨m, hm⟩ : ∃ m, f.length = m + 1 := by
    cases f with
    | nil => exact absurd rfl hf
    | cons c cs => exact ⟨cs.length, rfl⟩
  have hend := dirname_end_append D f hD hfs m (by omega) true
  unfold dirname
  have hlen : ((D ++ '/' :: f).length == 0) = false := by
    simp
  have hl1 : (D ++ '/' :: f).length - 1 = D.length + (m + 1) := by
    simp only [List.length_append, List.length_cons, hm]
    omega
  simp only [hlen, hl1, hend, Bool.false_eq_true, if_false]
  have hne1 : ¬ (((D ++ '/' :: f).getD 0 ' ' == '/') && (D.length == 1)) = true := by
    intro h
    rw [Bool.and_eq_true, beq_iff_eq, beq_iff_eq] at h
    cases D with
    | nil => exact absurd rfl hD
    | cons c cs =>
      cases cs with
      | nil =>
        have hc : c = '/' := by simpa using h.1
        subst hc
        exact hlast rfl
      | cons c2 cs2 => simp at h
  rw [if_neg hne1]
  simp

/-! ## The claims, continued -/

/-- C13: for a page `P` of the Page Set `S` whose links are Page Paths, `validate_page P S` writes
the lines of the links followed by one line `::error file=<P minus its first code unit>::<entry>`
for each entry of the `errors` of `P`, in order, and it returns `true` exactly when it wrote at
least one line. -/
theorem validate_page_reports_errors (S : PageSet) (P : Str) (info : PageInfo)
    (hP : own S P = some info) (hpaths : ∀ l ∈ info.links, isPagePath l.1) :
    (validate_page P S).1 =
        info.links.filterMap (link_out (P.drop 1) S) ++
          info.errors.map (fun other => "::error file=".toList ++ P.drop 1 ++ "::".toList ++ other) ∧
      ∃ rc, (validate_page P S).2 = some rc ∧ (rc = true ↔ (validate_page P S).1 ≠ []) := by
  rw [validate_page_ok P S info hP hpaths]
  refine ⟨rfl, _, rfl, ?_⟩
  simp only [Bool.or_eq_true, Bool.not_eq_true', List.isEmpty_eq_false, ne_eq,
    List.append_eq_nil, List.map_eq_nil_iff, other_line]
  tauto

/-- Witness of C13 on the page `/en/index.html` of `docs_and_outside_set`, which has a broken link
and an `errors` entry. -/
theorem validate_page_reports_errors_witness :
    (validate_page "/en/index.html".toList docs_and_outside_set).1 =
      ["::error file=en/index.html::Broken internal link from en/index.html -> /en/nowhere.html".toList,
       "::error file=en/index.html::Incorrect markdown link: a][b".toList] ∧
    (validate_page "/en/index.html".toList docs_and_outside_set).2 = some true := by
  have h := validate_page_reports_errors docs_and_outside_set "/en/index.html".toList
    { links := [("/en/nowhere.html".toList, none)], fragments := ["top".toList],
      errors := ["Incorrect markdown link: a][b".toList] } rfl (by decide)
  exact ⟨h.1.trans rfl, rfl⟩

/-- C14: a link without fragment whose target is a key of the Page Set writes no line, whatever the
record of the target holds: its check gives nothing, and the loop over the links behaves as if the
link were not in the list. -/
theorem fragmentless_link_to_page_is_silent (S : PageSet) (T : Str) (hT : T ∈ keys S)
    (relpath : Str) :
    check_link relpath S (T, none) = .ok none ∧
      ∀ (before after : List Link) (rc : Bool),
        validate_links relpath S (before ++ (T, none) :: after) rc =
          validate_links relpath S (before ++ after) rc := by
  have hin : in_pages T S = true := by
    obtain ⟨v, hv⟩ := own_of_mem_keys hT
    unfold in_pages
    rw [hv]
    rfl
  have hc : check_link relpath S (T, none) = .ok none := by
    unfold check_link
    simp only [hin]
    rfl
  refine ⟨hc, ?_⟩
  intro before after
  induction before with
  | nil =>
    intro rc
    simp only [List.nil_append]
    rw [validate_links, hc]
  | cons l ls ih =>
    intro rc
    simp only [List.cons_append]
    rw [validate_links, validate_links, ih, ih]

/-- Witness of C14: the link from `/en/docs/a.html` to `/en/index.html` in
`docs_and_outside_set`. -/
theorem fragmentless_link_to_page_is_silent_witness :
    "/en/index.html".toList ∈ keys docs_and_outside_set ∧
    check_link "en/docs/a.html".toList docs_and_outside_set ("/en/index.html".toList, none) =
      .ok none :=
  ⟨by decide,
   (fragmentless_link_to_page_is_silent docs_and_outside_set "/en/index.html".toList (by decide)
     "en/docs/a.html".toList).1⟩

theorem root_not_skipped {p : Str} (hroot : startsWith p "/".toList = true)
    (hcss : startsWith p "/css".toList = false) (hassets : startsWith p "/assets".toList = false) :
    p ≠ [] ∧ is_skipped p = false := by
  cases p with
  | nil => exact absurd hroot (by decide)
  | cons c cs =>
    have hc : '/' = c := by
      simpa [startsWith] using hroot
    subst hc
    refine ⟨List.cons_ne_nil _ _, ?_⟩
    unfold is_skipped
    rw [hcss, hassets]
    rfl

theorem pathChar_of_ne {p : Str} (h : ∀ c ∈ p, c ≠ '"' ∧ c ≠ '?' ∧ c ≠ '#') :
    ∀ c ∈ p, pathChar c = true := by
  intro c hc
  obtain ⟨h1, h2, h3⟩ := h c hc
  simp [pathChar, h1, h2, h3]

theorem fragChar_of_ne {f : Str} (h : ∀ c ∈ f, c ≠ '"' ∧ c ≠ '?') :
    ∀ c ∈ f, fragChar c = true := by
  intro c hc
  obtain ⟨h1, h2⟩ := h c hc
  simp [fragChar, h1, h2]

theorem notQuote_of_ne {q : Str} (h : ∀ c ∈ q, c ≠ '"') : ∀ c ∈ q, notQuote c = true := by
  intro c hc
  simp [notQuote, h c hc]

/-- C15: for a path part `p` that starts with `/` but not with `/css` or `/assets`, the loop body
pushes the target `p + ".html"` when `p` does not end with `.html` and contains `getting-started`
or `packages` as a substring, and `p` itself otherwise, together with the fragment of the match;
so the text ` href="p"` loads into a record whose only link has that target. -/
theorem root_relative_target (R p : Str)
    (hroot : startsWith p "/".toList = true) (hcss : startsWith p "/css".toList = false)
    (hassets : startsWith p "/assets".toList = false) :
    (∀ (ret : PageInfo) (g3 : Option Str),
      href_step R ret ⟨p, g3⟩ =
        .ok (push_link ret
          (if (!endsWith p ".html".toList &&
              (includes p "getting-started".toList || includes p "packages".toList)) = true
            then p ++ ".html".toList else p, g3))) ∧
    ((∀ c ∈ p, c ≠ '"' ∧ c ≠ '?' ∧ c ≠ '#') →
      ∃ info, load_page_info (" href=\"".toList ++ p ++ "\"".toList) R = .ok info ∧
        info.links =
          [(if (!endsWith p ".html".toList &&
              (includes p "getting-started".toList || includes p "packages".toList)) = true
            then p ++ ".html".toList else p, none)]) := by
  obtain ⟨hne, hskip⟩ := root_not_skipped hroot hcss hassets
  have htarget : link_target R p =
      if (!endsWith p ".html".toList &&
          (includes p "getting-started".toList || includes p "packages".toList)) = true
        then p ++ ".html".toList else p := by
    unfold link_target
    rw [if_pos hroot, needs_html_eq]
  constructor
  · intro ret g3
    rw [href_step_link R ret p g3 hne hskip, htarget]
  · intro hp
    obtain ⟨info, hinfo, hlinks⟩ := load_single_href R p none [] (pathChar_of_ne hp)
      (fun f hf => by cases hf) (fun c hc => by cases hc) (Or.inl rfl) hne hskip
    refine ⟨info, ?_, ?_⟩
    · rw [← hinfo]
      simp [href_lit, href_value]
    · rw [hlinks, htarget]

/-- Witness of C15: the extension-less route `/en/getting-started` and the page
`/en/docs/packages.html`. -/
theorem root_relative_target_witness :
    href_step "/en/a.html".toList { links := [], fragments := [], errors := [] }
        ⟨"/en/getting-started".toList, none⟩ =
      .ok { links := [("/en/getting-started.html".toList, none)], fragments := [], errors := [] } ∧
    href_step "/en/a.html".toList { links := [], fragments := [], errors := [] }
        ⟨"/en/docs/packages.html".toList, some "top".toList⟩ =
      .ok { links := [("/en/docs/packages.html".toList, some "top".toList)], fragments := [],
            errors := [] } :=
  ⟨((root_relative_target "/en/a.html".toList "/en/getting-started".toList rfl rfl rfl).1
      { links := [], fragments := [], errors := [] } none).trans rfl,
   ((root_relative_target "/en/a.html".toList "/en/docs/packages.html".toList rfl rfl rfl).1
      { links := [], fragments := [], errors := [] } (some "top".toList)).trans rfl⟩

/-- C16: for a path part made of `k` copies of `../` followed by a subpath `s` that does not start
with `../`, not empty, not skipped and not starting with `/`, the loop runs exactly `k` times and
leaves `dir` equal to `dirname` applied `k + 1` times to the page path and `subpath` equal to `s`;
the link pushed has the target `dir + "/" + s`, with `.html` appended when `s` does not end with
`.html` and contains `getting-started` or `packages`, and the fragment of the match. -/
theorem dotdot_resolution (R s : Str) (k : Nat)
    (hs : startsWith s "../".toList = false) (hne : dotdots k ++ s ≠ [])
    (hskip : is_skipped (dotdots k ++ s) = false)
    (hroot : startsWith (dotdots k ++ s) "/".toList = false) :
    dotdot_iterations (dotdots k ++ s) = k ∧
      strip_dotdot (dirname R) (dotdots k ++ s) = (dirname^[k + 1] R, s) ∧
      ∀ (ret : PageInfo) (g3 : Option Str),
        href_step R ret ⟨dotdots k ++ s, g3⟩ =
          .ok (push_link ret
            (if (!endsWith s ".html".toList &&
                (includes s "getting-started".toList || includes s "packages".toList)) = true
              then dirname^[k + 1] R ++ "/".toList ++ s ++ ".html".toList
              else dirname^[k + 1] R ++ "/".toList ++ s, g3)) := by
  have hstrip := strip_dotdot_dotdots (dirname R) s k hs
  have hiter : dirname^[k] (dirname R) = dirname^[k + 1] R :=
    (Function.iterate_succ_apply dirname k R).symm
  rw [hiter] at hstrip
  refine ⟨hstrip.2, hstrip.1, ?_⟩
  intro ret g3
  rw [href_step_link R ret _ g3 hne hskip]
  unfold link_target
  simp only [hroot, Bool.false_eq_true, if_false, hstrip.1]
  rw [needs_html_eq]

/-- Witness of C16: `../../tools/x.html` on the page `/en/docs/users/a.html`. -/
theorem dotdot_resolution_witness :
    dotdot_iterations "../../tools/x.html".toList = 2 ∧
    href_step "/en/docs/users/a.html".toList { links := [], fragments := [], errors := [] }
        ⟨"../../tools/x.html".toList, some "top".toList⟩ =
      .ok { links := [("/en/tools/x.html".toList, some "top".toList)], fragments := [],
            errors := [] } :=
  have h := dotdot_resolution "/en/docs/users/a.html".toList "tools/x.html".toList 2 rfl
    (by decide) rfl rfl
  ⟨h.1, (h.2.2 { links := [], fragments := [], errors := [] } (some "top".toList)).trans rfl⟩

theorem isPagePath_append {a : Str} (b : Str) (h : isPagePath a) : isPagePath (a ++ b) := by
  cases a with
  | nil => simp [isPagePath] at h
  | cons c cs => exact h

theorem strip_dotdot_pagePath (dir p : Str) (h : isPagePath dir) :
    isPagePath (strip_dotdot dir p).1 := by
  induction dir, p using strip_dotdot.induct with
  | case1 dir rest ih =>
    rw [strip_dotdot]
    exact ih (dirname_pagePath h)
  | case2 dir subpath hno =>
    rw [strip_dotdot]
    · exact h
    · exact hno

theorem link_target_pagePath (R p : Str) (hR : isPagePath R) : isPagePath (link_target R p) := by
  unfold link_target
  cases hr : startsWith p "/".toList with
  | true =>
    have hp : isPagePath p := by
      cases p with
      | nil => exact absurd hr (by decide)
      | cons c cs =>
        have hc : '/' = c := by
          simpa [startsWith] using hr
        subst hc
        rfl
    simp only [if_true]
    split
    · exact isPagePath_append _ hp
    · exact hp
  | false =>
    have hd := strip_dotdot_pagePath (dirname R) p (dirname_pagePath hR)
    simp only [Bool.false_eq_true, if_false]
    split
    · simp only [List.append_assoc]
      exact isPagePath_append _ hd
    · simp only [List.append_assoc]
      exact isPagePath_append _ hd

theorem href_step_pagePath (R : Str) (ret ret1 : PageInfo) (m : HrefMatch) (hR : isPagePath R)
    (hstep : href_step R ret m = .ok ret1) (hinv : ∀ l ∈ ret.links, isPagePath l.1) :
    ∀ l ∈ ret1.links, isPagePath l.1 := by
  have hpush : ∀ (t : Str) (g : Option Str), isPagePath t →
      ∀ l ∈ (push_link ret (t, g)).links, isPagePath l.1 := by
    intro t g ht l hl
    simp only [push_link, List.mem_append, List.mem_singleton] at hl
    rcases hl with hl | rfl
    · exact hinv l hl
    · exact ht
  obtain ⟨g1, g3⟩ := m
  cases g1 with
  | nil =>
    unfold href_step at hstep
    simp only [List.length_nil, beq_self_eq_true, if_true] at hstep
    cases g3 with
    | none => simp at hstep
    | some f =>
      simp only at hstep
      split at hstep
      · split at hstep
        · cases hstep
          exact hpush _ _ (isPagePath_append _ hR)
        · cases hstep
          exact hpush _ _ hR
      · cases hstep
        exact hinv
  | cons c cs =>
    cases hsk : is_skipped (c :: cs) with
    | true =>
      rw [href_step_skipped R ret ⟨c :: cs, g3⟩ hsk] at hstep
      cases hstep
      exact hinv
    | false =>
      rw [href_step_link R ret (c :: cs) g3 (List.cons_ne_nil _ _) hsk] at hstep
      cases hstep
      exact hpush _ _ (link_target_pagePath R _ hR)

theorem href_loop_pagePath (R : Str) (ret ret1 : PageInfo) (ms : List HrefMatch)
    (hR : isPagePath R) (hloop : href_loop R ret ms = .ok ret1)
    (hinv : ∀ l ∈ ret.links, isPagePath l.1) : ∀ l ∈ ret1.links, isPagePath l.1 := by
  induction ms generalizing ret with
  | nil =>
    simp only [href_loop] at hloop
    cases hloop
    exact hinv
  | cons m ms ih =>
    rw [href_loop] at hloop
    cases hstep : href_step R ret m with
    | error e => simp [hstep] at hloop
    | ok r =>
      rw [hstep] at hloop
      exact ih r hloop (href_step_pagePath R ret r m hR hstep hinv)

/-- A loaded record comes from a completed href loop, whose links it keeps. -/
theorem load_page_info_ok (content R : Str) (info : PageInfo)
    (h : load_page_info content R = .ok info) :
    ∃ ret1, href_loop R { links := [], fragments := [], errors := [] } (href_matches content)
        = .ok ret1 ∧ info.links = ret1.links := by
  cases hloop : href_loop R { links := [], fragments := [], errors := [] }
      (href_matches content) with
  | error e =>
    unfold load_page_info at h
    rw [hloop] at h
    cases h
  | ok ret1 =>
    obtain ⟨info2, hinfo2, hlinks⟩ := load_page_info_links content R ret1 hloop
    rw [h] at hinfo2
    cases hinfo2
    exact ⟨ret1, rfl, hlinks⟩

/-- C17: for a page path that begins with `/` and every page text that loads into a record, every
link target of the record begins with `/`. -/
theorem link_targets_are_page_paths (R content : Str) (info : PageInfo) (hR : R.head? = some '/')
    (hload : load_page_info content R = .ok info) : ∀ l ∈ info.links, l.1.head? = some '/' := by
  obtain ⟨ret1, hloop, hlinks⟩ := load_page_info_ok content R info hload
  rw [hlinks]
  exact href_loop_pagePath R _ ret1 _ hR hloop (fun l hl => by cases hl)

/-- Witness of C17: a self-anchor, a root-relative and two document-relative links on the page
`/en/docs/a.html`. -/
theorem link_targets_are_page_paths_witness :
    load_page_info
        "<a href=\"#top\"><a href=\"/en/x.html\"><a href=\"../y.html#s\"><a href=\"../../../z\">".toList
        "/en/docs/a.html".toList =
      .ok { links := [("/en/docs/a.html".toList, some "top".toList), ("/en/x.html".toList, none),
                      ("/en/y.html".toList, some "s".toList), ("//z".toList, none)],
            fragments := [], errors := [] } ∧
    ∀ l ∈ [("/en/docs/a.html".toList, some "top".toList), ("/en/x.html".toList, none),
           ("/en/y.html".toList, some "s".toList), ("//z".toList, (none : Option Str))],
      l.1.head? = some '/' :=
  ⟨rfl, link_targets_are_page_paths "/en/docs/a.html".toList
    "<a href=\"#top\"><a href=\"/en/x.html\"><a href=\"../y.html#s\"><a href=\"../../../z\">".toList
    _ rfl rfl⟩

/-- C18: for a path part `p` that is neither empty nor skipped there is one target such that, for
every fragment `f` and every remainder `q` that starts with `?` (no double quote anywhere), the
texts ` href="p#fq"` and ` href="p#f"` both load into a record whose only link is
`(target, f)`, and the texts ` href="pq"` and ` href="p"` both load into a record whose only link
is `(target, undefined)`, also when `q` contains `#`. -/
theorem query_string_is_dropped (R p : Str) (hp : ∀ c ∈ p, c ≠ '"' ∧ c ≠ '?' ∧ c ≠ '#')
    (hne : p ≠ []) (hskip : is_skipped p = false) :
    ∃ target, ∀ (f q : Str), (∀ c ∈ f, c ≠ '"' ∧ c ≠ '?') → (∀ c ∈ q, c ≠ '"') →
      q.head? = some '?' →
      (∃ info, load_page_info (" href=\"".toList ++ p ++ "#".toList ++ f ++ q ++ "\"".toList) R
          = .ok info ∧ info.links = [(target, some f)]) ∧
      (∃ info, load_page_info (" href=\"".toList ++ p ++ "#".toList ++ f ++ "\"".toList) R
          = .ok info ∧ info.links = [(target, some f)]) ∧
      (∃ info, load_page_info (" href=\"".toList ++ p ++ q ++ "\"".toList) R
          = .ok info ∧ info.links = [(target, none)]) ∧
      (∃ info, load_page_info (" href=\"".toList ++ p ++ "\"".toList) R
          = .ok info ∧ info.links = [(target, none)]) := by
  refine ⟨link_target R p, ?_⟩
  intro f q hf hq hq0
  have hpc := pathChar_of_ne hp
  have hfc := fragChar_of_ne hf
  have hqc := notQuote_of_ne hq
  have hfs : ∀ g, some f = some g → ∀ c ∈ g, fragChar c = true := by
    intro g hg
    cases hg
    exact hfc
  have hnone : ∀ g, (none : Option Str) = some g → ∀ c ∈ g, fragChar c = true := by
    intro g hg
    cases hg
  have hnil : ∀ c ∈ ([] : Str), notQuote c = true := by
    intro c hc
    cases hc
  obtain ⟨i1, h1, l1⟩ := load_single_href R p (some f) q hpc hfs hqc (Or.inr hq0) hne hskip
  obtain ⟨i2, h2, l2⟩ := load_single_href R p (some f) [] hpc hfs hnil (Or.inl rfl) hne hskip
  obtain ⟨i3, h3, l3⟩ := load_single_href R p none q hpc hnone hqc (Or.inr hq0) hne hskip
  obtain ⟨i4, h4, l4⟩ := load_single_href R p none [] hpc hnone hnil (Or.inl rfl) hne hskip
  refine ⟨⟨i1, ?_, l1⟩, ⟨i2, ?_, l2⟩, ⟨i3, ?_, l3⟩, ⟨i4, ?_, l4⟩⟩
  · rw [← h1]
    simp [href_lit, href_value]
  · rw [← h2]
    simp [href_lit, href_value]
  · rw [← h3]
    simp [href_lit, href_value]
  · rw [← h4]
    simp [href_lit, href_value]

/-- Witness of C18: the path `/en/x.html`, the fragment `top` and the remainder `?a=1#b`. -/
theorem query_string_is_dropped_witness :
    load_page_info " href=\"/en/x.html#top?a=1#b\"".toList "/en/a.html".toList =
      .ok { links := [("/en/x.html".toList, some "top".toList)], fragments := [], errors := [] } ∧
    load_page_info " href=\"/en/x.html?a=1#b\"".toList "/en/a.html".toList =
      .ok { links := [("/en/x.html".toList, none)], fragments := [], errors := [] } ∧
    ∃ target,
      (∃ info, load_page_info (" href=\"".toList ++ "/en/x.html".toList ++ "#".toList ++
          "top".toList ++ "?a=1#b".toList ++ "\"".toList) "/en/a.html".toList = .ok info ∧
        info.links = [(target, some "top".toList)]) ∧
      (∃ info, load_page_info (" href=\"".toList ++ "/en/x.html".toList ++ "#".toList ++
          "top".toList ++ "\"".toList) "/en/a.html".toList = .ok info ∧
        info.links = [(target, some "top".toList)]) ∧
      (∃ info, load_page_info (" href=\"".toList ++ "/en/x.html".toList ++ "?a=1#b".toList ++
          "\"".toList) "/en/a.html".toList = .ok info ∧ info.links = [(target, none)]) ∧
      (∃ info, load_page_info (" href=\"".toList ++ "/en/x.html".toList ++ "\"".toList)
          "/en/a.html".toList = .ok info ∧ info.links = [(target, none)]) :=
  ⟨rfl, rfl,
   (query_string_is_dropped "/en/a.html".toList "/en/x.html".toList (by decide) (by decide)
      rfl).imp
     (fun _ h => h "top".toList "?a=1#b".toList (by decide) (by decide) rfl)⟩

/-- C19: the text ` href="#"` loads into a record without any link, for every page path; for a path
part `p` that is neither empty nor skipped, the text ` href="p#"` loads into a record whose only
link carries the empty string as fragment; and checking a link with the empty fragment against a
Page Set that holds the target, whose record has no empty fragment name, writes the
broken-fragment-link line. -/
theorem empty_fragment_shapes :
    (∀ R : Str, load_page_info " href=\"#\"".toList R =
      .ok { links := [], fragments := [], errors := [] }) ∧
    (∀ R p : Str, (∀ c ∈ p, c ≠ '"' ∧ c ≠ '?' ∧ c ≠ '#') → p ≠ [] → is_skipped p = false →
      ∃ info target, load_page_info (" href=\"".toList ++ p ++ "#\"".toList) R = .ok info ∧
        info.links = [(target, some [])]) ∧
    (∀ (S : PageSet) (relpath target : Str) (target_info : PageInfo),
      own S target = some target_info → [] ∉ target_info.fragments →
      check_link relpath S (target, some []) =
        .ok (some ("::error file=".toList ++ relpath ++ "::Broken fragment link from ".toList ++
          relpath ++ " -> ".toList ++ target ++ "#".toList))) := by
  refine ⟨fun R => rfl, ?_, ?_⟩
  · intro R p hp hne hskip
    obtain ⟨info, hinfo, hlinks⟩ := load_single_href R p (some []) [] (pathChar_of_ne hp)
      (fun g hg c hc => by cases hg; cases hc) (fun c hc => by cases hc) (Or.inl rfl) hne hskip
    refine ⟨info, link_target R p, ?_, hlinks⟩
    rw [← hinfo]
    simp [href_lit, href_value]
  · intro S relpath target target_info hown hfrag
    have hin : in_pages target S = true := by
      unfold in_pages
      rw [hown]
      rfl
    have hnf : in_fragments [] target_info = false := by
      unfold in_fragments
      have h1 : target_info.fragments.contains [] = false := by
        cases hb : target_info.fragments.contains [] with
        | false => rfl
        | true => exact absurd (by simpa using hb) hfrag
      rw [h1]
      rfl
    unfold check_link
    simp only [hin, hown, hnf]
    simp [broken_fragment_line]

/-- Witness of C19: on the page `/en/a.html` the text ` href="/en/b.html#"` gives a link with the
empty fragment, reported against a page `/en/b.html` that defines only `intro`. -/
theorem empty_fragment_shapes_witness :
    load_page_info " href=\"/en/b.html#\"".toList "/en/a.html".toList =
      .ok { links := [("/en/b.html".toList, some [])], fragments := [], errors := [] } ∧
    check_link "en/a.html".toList
        [("/en/b.html".toList, { links := [], fragments := ["intro".toList], errors := [] })]
        ("/en/b.html".toList, some []) =
      .ok (some ("::error file=".toList ++ "en/a.html".toList ++
        "::Broken fragment link from ".toList ++ "en/a.html".toList ++ " -> ".toList ++
        "/en/b.html".toList ++ "#".toList)) :=
  ⟨rfl, empty_fragment_shapes.2.2 _ _ _ { links := [], fragments := ["intro".toList], errors := [] }
    rfl (by decide)⟩

theorem proto_no_slash {k : Str} (h : '/' ∈ k) : objectPrototypeKeys.contains k = false := by
  have hall : ∀ x ∈ objectPrototypeKeys, '/' ∉ x := by decide
  cases hb : objectPrototypeKeys.contains k with
  | false => rfl
  | true => exact absurd h (hall k (by simpa using hb))

theorem needs_html_of_html {p : Str} (h : endsWith p ".html".toList = true) :
    needs_html p = false := by
  unfold needs_html
  rw [h]
  rfl

theorem endsWith_append (a s suf : Str) (h : endsWith s suf = true) :
    endsWith (a ++ s) suf = true := by
  unfold endsWith at h ⊢
  rw [List.isSuffixOf_iff_suffix] at h ⊢
  exact h.trans (List.suffix_append a s)

theorem check_link_missing (S : PageSet) (relpath target : Str) (g : Option Str)
    (hslash : '/' ∈ target) (hkey : target ∉ keys S) :
    check_link relpath S (target, g) = .ok (some (broken_link_line relpath target)) := by
  have hin : in_pages target S = false := by
    unfold in_pages
    rw [(own_eq_none_iff S target).mpr hkey, proto_no_slash hslash]
    rfl
  unfold check_link
  simp only [hin]
  rfl

theorem not_dotdot_prefix (x rest : Str) (hxne : x ≠ []) (hxs : '/' ∉ x)
    (hxdd : x ≠ ['.', '.']) : startsWith (x ++ '/' :: rest) "../".toList = false := by
  cases hb : startsWith (x ++ '/' :: rest) "../".toList with
  | false => rfl
  | true =>
    exfalso
    unfold startsWith at hb
    rw [List.isPrefixOf_iff_prefix] at hb
    obtain ⟨t, ht⟩ := hb
    cases x with
    | nil => exact hxne rfl
    | cons c1 x1 =>
      cases x1 with
      | nil =>
        simp only [List.cons_append, List.nil_append] at ht
        have h2 := (List.cons.inj (List.cons.inj ht).2).1
        exact absurd h2 (by decide)
      | cons c2 x2 =>
        cases x2 with
        | nil =>
          simp only [List.cons_append, List.nil_append] at ht
          have h1 := (List.cons.inj ht).1
          have h2 := (List.cons.inj (List.cons.inj ht).2).1
          apply hxdd
          rw [← h1, ← h2]
        | cons c3 x3 =>
          simp only [List.cons_append] at ht
          have h3 := (List.cons.inj (List.cons.inj (List.cons.inj ht).2).2).1
          apply hxs
          rw [← h3]
          simp

/-- The target of a document-relative path part that does not start with `../` and ends with
`.html`: the directory of the page, `/`, and the path part unchanged. -/
theorem link_target_plain (D f p : Str) (hD : D ≠ []) (hlast : D.getLast? ≠ some '/')
    (hf : f ≠ []) (hfs : '/' ∉ f) (hroot : startsWith p "/".toList = false)
    (hdd : startsWith p "../".toList = false) (hhtml : endsWith p ".html".toList = true) :
    link_target (D ++ '/' :: f) p = D ++ '/' :: p := by
  unfold link_target
  simp only [hroot, Bool.false_eq_true, if_false]
  rw [(strip_dotdot_stop _ p hdd).1, dirname_append D f hD hlast hf hfs]
  simp only [needs_html_of_html hhtml, Bool.false_eq_true, if_false]
  simp

/-- C20: on the page `D/f`, for a page file name `s` (ending with `.html`) and a directory name `x`
other than `..`, the text ` href="./s"` loads into the single link `D/./s` and the text
` href="x/../s"` into the single link `D/x/../s`; neither target equals the Page Path `D/s`, and
checking either against a Page Set that does not hold it writes the broken-internal-link line. -/
theorem inner_dot_segments_not_normalised (D f s x : Str)
    (hD : D ≠ []) (hlast : D.getLast? ≠ some '/') (hf : f ≠ []) (hfs : '/' ∉ f)
    (hs : ∀ c ∈ s, c ≠ '"' ∧ c ≠ '?' ∧ c ≠ '#') (hhtml : endsWith s ".html".toList = true)
    (hx : ∀ c ∈ x, c ≠ '"' ∧ c ≠ '?' ∧ c ≠ '#' ∧ c ≠ '/') (hxne : x ≠ [])
    (hxdd : x ≠ "..".toList) (hxskip : is_skipped (x ++ "/../".toList ++ s) = false) :
    (∃ info, load_page_info (" href=\"./".toList ++ s ++ "\"".toList) (D ++ "/".toList ++ f)
        = .ok info ∧ info.links = [(D ++ "/./".toList ++ s, none)]) ∧
    (∃ info, load_page_info (" href=\"".toList ++ x ++ "/../".toList ++ s ++ "\"".toList)
        (D ++ "/".toList ++ f) = .ok info ∧
      info.links = [(D ++ "/".toList ++ x ++ "/../".toList ++ s, none)]) ∧
    D ++ "/./".toList ++ s ≠ D ++ "/".toList ++ s ∧
    D ++ "/".toList ++ x ++ "/../".toList ++ s ≠ D ++ "/".toList ++ s ∧
    ∀ (S : PageSet) (relpath : Str),
      (D ++ "/./".toList ++ s ∉ keys S →
        check_link relpath S (D ++ "/./".toList ++ s, none) =
          .ok (some ("::error file=".toList ++ relpath ++ "::Broken internal link from ".toList ++
            relpath ++ " -> ".toList ++ (D ++ "/./".toList ++ s)))) ∧
      (D ++ "/".toList ++ x ++ "/../".toList ++ s ∉ keys S →
        check_link relpath S (D ++ "/".toList ++ x ++ "/../".toList ++ s, none) =
          .ok (some ("::error file=".toList ++ relpath ++ "::Broken internal link from ".toList ++
            relpath ++ " -> ".toList ++ (D ++ "/".toList ++ x ++ "/../".toList ++ s)))) := by
  have hR : D ++ "/".toList ++ f = D ++ '/' :: f := by simp
  have hnone : ∀ g, (none : Option Str) = some g → ∀ c ∈ g, fragChar c = true := by
    intro g hg
    cases hg
  have hnil : ∀ c ∈ ([] : Str), notQuote c = true := by
    intro c hc
    cases hc
  -- the path part `./s`
  have hp1 : ∀ c ∈ '.' :: '/' :: s, pathChar c = true := by
    intro c hc
    simp only [List.mem_cons] at hc
    rcases hc with rfl | rfl | hc
    · rfl
    · rfl
    · exact pathChar_of_ne hs c hc
  have ht1 : link_target (D ++ '/' :: f) ('.' :: '/' :: s) = D ++ '/' :: '.' :: '/' :: s :=
    link_target_plain D f _ hD hlast hf hfs rfl rfl (endsWith_append ['.', '/'] s _ hhtml)
  obtain ⟨i1, h1, l1⟩ := load_single_href (D ++ '/' :: f) ('.' :: '/' :: s) none [] hp1 hnone hnil
    (Or.inl rfl) (List.cons_ne_nil _ _) rfl
  -- the path part `x/../s`
  have hxs : '/' ∉ x := fun hm => (hx _ hm).2.2.2 rfl
  have hp2e : x ++ "/../".toList ++ s = x ++ '/' :: ('.' :: '.' :: '/' :: s) := by simp
  have hp2 : ∀ c ∈ x ++ '/' :: ('.' :: '.' :: '/' :: s), pathChar c = true := by
    intro c hc
    simp only [List.mem_append, List.mem_cons] at hc
    rcases hc with hc | rfl | rfl | rfl | rfl | hc
    · obtain ⟨a1, a2, a3, _⟩ := hx c hc
      simp [pathChar, a1, a2, a3]
    · rfl
    · rfl
    · rfl
    · rfl
    · exact pathChar_of_ne hs c hc
  have hne2 : x ++ '/' :: ('.' :: '.' :: '/' :: s) ≠ [] := by
    cases x with
    | nil => exact absurd rfl hxne
    | cons c cs => exact List.cons_ne_nil _ _
  have hroot2 : startsWith (x ++ '/' :: ('.' :: '.' :: '/' :: s)) "/".toList = false := by
    cases x with
    | nil => exact absurd rfl hxne
    | cons c cs =>
      have hc : c ≠ '/' := (hx c (List.mem_cons_self _ _)).2.2.2
      cases hb : startsWith (c :: cs ++ '/' :: ('.' :: '.' :: '/' :: s)) "/".toList with
      | false => rfl
      | true =>
        have : '/' = c := by simpa [startsWith] using hb
        exact absurd this.symm hc
  have hdd2 := not_dotdot_prefix x ('.' :: '.' :: '/' :: s) hxne hxs hxdd
  have hhtml2 : endsWith (x ++ '/' :: ('.' :: '.' :: '/' :: s)) ".html".toList = true := by
    have := endsWith_append (x ++ ['/', '.', '.', '/']) s _ hhtml
    simpa using this
  have ht2 : link_target (D ++ '/' :: f) (x ++ '/' :: ('.' :: '.' :: '/' :: s)) =
      D ++ '/' :: (x ++ '/' :: ('.' :: '.' :: '/' :: s)) :=
    link_target_plain D f _ hD hlast hf hfs hroot2 hdd2 hhtml2
  rw [hp2e] at hxskip
  obtain ⟨i2, h2, l2⟩ := load_single_href (D ++ '/' :: f) (x ++ '/' :: ('.' :: '.' :: '/' :: s))
    none [] hp2 hnone hnil (Or.inl rfl) hne2 hxskip
  have e1 : D ++ "/./".toList ++ s = D ++ '/' :: '.' :: '/' :: s := by simp
  have e2 : D ++ "/".toList ++ x ++ "/../".toList ++ s =
      D ++ '/' :: (x ++ '/' :: ('.' :: '.' :: '/' :: s)) := by simp
  have e3 : D ++ "/".toList ++ s = D ++ '/' :: s := by simp
  rw [hR, e1, e2, e3]
  refine ⟨⟨i1, ?_, ?_⟩, ⟨i2, ?_, ?_⟩, ?_, ?_, ?_⟩
  · rw [← h1]
    simp [href_lit, href_value]
  · rw [l1, ht1]
  · rw [← h2]
    simp [href_lit, href_value]
  · rw [l2, ht2]
  · intro h
    have := congrArg List.length h
    simp at this
    omega
  · intro h
    have := congrArg List.length h
    simp at this
    omega
  · intro S relpath
    constructor
    · intro hkey
      rw [check_link_missing S relpath _ none (by simp) hkey]
      simp [broken_link_line]
    · intro hkey
      rw [check_link_missing S relpath _ none (by simp) hkey]
      simp [broken_link_line]

/-- Witness of C20: the page `/en/docs/a.html`, the file name `b.html` and the directory name
`x`. -/
theorem inner_dot_segments_not_normalised_witness :
    load_page_info " href=\"./b.html\"".toList "/en/docs/a.html".toList =
      .ok { links := [("/en/docs/./b.html".toList, none)], fragments := [], errors := [] } ∧
    load_page_info " href=\"x/../b.html\"".toList "/en/docs/a.html".toList =
      .ok { links := [("/en/docs/x/../b.html".toList, none)], fragments := [], errors := [] } ∧
    "/en/docs".toList ++ "/./".toList ++ "b.html".toList ≠
      "/en/docs".toList ++ "/".toList ++ "b.html".toList ∧
    "/en/docs".toList ++ "/".toList ++ "x".toList ++ "/../".toList ++ "b.html".toList ≠
      "/en/docs".toList ++ "/".toList ++ "b.html".toList :=
  have h := inner_dot_segments_not_normalised "/en/docs".toList "a.html".toList "b.html".toList
    "x".toList (by decide) (by decide) (by decide) (by decide) (by decide) rfl (by decide)
    (by decide) (by decide) rfl
  ⟨rfl, rfl, h.2.2.1, h.2.2.2.1⟩

/-! ## Lemmas: the record outside its links -/

theorem href_step_keeps (R : Str) (ret ret1 : PageInfo) (m : HrefMatch)
    (hstep : href_step R ret m = .ok ret1) :
    ret1.errors = ret.errors ∧ ret1.fragments = ret.fragments := by
  obtain ⟨g1, g3⟩ := m
  cases g1 with
  | nil =>
    unfold href_step at hstep
    simp only [List.length_nil, beq_self_eq_true, if_true] at hstep
    cases g3 with
    | none => simp at hstep
    | some f =>
      simp only at hstep
      split at hstep
      · split at hstep
        · cases hstep
          exact ⟨rfl, rfl⟩
        · cases hstep
          exact ⟨rfl, rfl⟩
      · cases hstep
        exact ⟨rfl, rfl⟩
  | cons c cs =>
    cases hsk : is_skipped (c :: cs) with
    | true =>
      rw [href_step_skipped R ret ⟨c :: cs, g3⟩ hsk] at hstep
      cases hstep
      exact ⟨rfl, rfl⟩
    | false =>
      rw [href_step_link R ret (c :: cs) g3 (List.cons_ne_nil _ _) hsk] at hstep
      cases hstep
      exact ⟨rfl, rfl⟩

theorem href_loop_keeps (R : Str) (ret ret1 : PageInfo) (ms : List HrefMatch)
    (hloop : href_loop R ret ms = .ok ret1) :
    ret1.errors = ret.errors ∧ ret1.fragments = ret.fragments := by
  induction ms generalizing ret with
  | nil =>
    simp only [href_loop] at hloop
    cases hloop
    exact ⟨rfl, rfl⟩
  | cons m ms ih =>
    rw [href_loop] at hloop
    cases hstep : href_step R ret m with
    | error e => simp [hstep] at hloop
    | ok r =>
      rw [hstep] at hloop
      have h1 := ih r hloop
      have h2 := href_step_keeps R ret r m hstep
      exact ⟨h1.1.trans h2.1, h1.2.trans h2.2⟩

theorem foldl_set_fragment_mem (l : List Str) (ret : PageInfo) (F : Str) :
    F ∈ (l.foldl set_fragment ret).fragments ↔
      F ∈ ret.fragments ∨ (F ∈ l ∧ F ≠ "__proto__".toList) := by
  induction l generalizing ret with
  | nil => simp
  | cons k ks ih =>
    simp only [List.foldl_cons]
    rw [ih]
    have hstep : F ∈ (set_fragment ret k).fragments ↔
        F ∈ ret.fragments ∨ (F = k ∧ F ≠ "__proto__".toList) := by
      unfold set_fragment
      by_cases hk : (k == "__proto__".toList || ret.fragments.contains k) = true
      · rw [if_pos hk]
        rw [Bool.or_eq_true, beq_iff_eq] at hk
        constructor
        · exact Or.inl
        · rintro (h | ⟨h1, h2⟩)
          · exact h
          · subst h1
            rcases hk with hk | hk
            · exact absurd hk h2
            · simpa using hk
      · rw [if_neg hk]
        rw [Bool.or_eq_true, beq_iff_eq, not_or] at hk
        simp only [List.mem_append, List.mem_singleton]
        constructor
        · rintro (h | h)
          · exact Or.inl h
          · subst h
            exact Or.inr ⟨rfl, hk.1⟩
        · rintro (h | ⟨h1, _⟩)
          · exact Or.inl h
          · exact Or.inr h1
    rw [hstep]
    simp only [List.mem_cons]
    tauto

theorem foldl_set_fragment_nodup (l : List Str) (ret : PageInfo) (h : ret.fragments.Nodup) :
    (l.foldl set_fragment ret).fragments.Nodup := by
  induction l generalizing ret with
  | nil => exact h
  | cons k ks ih =>
    simp only [List.foldl_cons]
    apply ih
    unfold set_fragment
    by_cases hk : (k == "__proto__".toList || ret.fragments.contains k) = true
    · rw [if_pos hk]
      exact h
    · rw [if_neg hk]
      rw [Bool.or_eq_true, not_or] at hk
      have hnot : k ∉ ret.fragments := by
        intro hm
        exact hk.2 (by simpa using hm)
      simp only
      rw [List.nodup_append]
      refine ⟨h, List.nodup_singleton k, ?_⟩
      intro a ha hb
      rw [List.mem_singleton] at hb
      subst hb
      exact hnot ha

/-- The `errors` and `fragments` of a loaded record, from the scans of the text alone. -/
theorem load_page_info_rest (content R : Str) (info : PageInfo)
    (h : load_page_info content R = .ok info) :
    info.errors = (md_matches content).map (fun m => "Incorrect markdown link: ".toList ++ m) ∧
      (∀ F, F ∈ info.fragments ↔
        (F ∈ id_matches content ∨ F ∈ name_matches content) ∧ F ≠ "__proto__".toList) ∧
      info.fragments.Nodup := by
  cases hloop : href_loop R { links := [], fragments := [], errors := [] }
      (href_matches content) with
  | error e =>
    unfold load_page_info at h
    rw [hloop] at h
    cases h
  | ok ret1 =>
    obtain ⟨he, hf⟩ := href_loop_keeps R _ ret1 _ hloop
    unfold load_page_info at h
    rw [hloop] at h
    simp only [Except.ok.injEq] at h
    subst h
    refine ⟨?_, ?_, ?_⟩
    · rw [(foldl_push_error_fragments _ _ _).2, (foldl_set_fragment_links _ _).2,
        (foldl_set_fragment_links _ _).2, he]
      rfl
    · intro F
      rw [(foldl_push_error_fragments _ _ _).1, foldl_set_fragment_mem, foldl_set_fragment_mem, hf]
      simp only [List.not_mem_nil, false_or]
      tauto
    · rw [(foldl_push_error_fragments _ _ _).1]
      apply foldl_set_fragment_nodup
      apply foldl_set_fragment_nodup
      rw [hf]
      exact List.nodup_nil

/-! ## Lemmas: the markdown pattern -/

theorem dotRun_spec (s : Str) : (dotRun s).length ≤ 30 ∧ dotRun s <+: s := by
  unfold dotRun
  constructor
  · rw [List.length_take]
    exact Nat.min_le_left _ _
  · exact (List.take_prefix _ _).trans (List.takeWhile_prefix _)

theorem md_prefix_len_spec (s : Str) (b j : Nat) (h : md_prefix_len s b = some j) :
    j ≤ b ∧ [']', '['].isPrefixOf (s.drop j) = true := by
  induction b with
  | zero =>
    unfold md_prefix_len at h
    split at h
    · rename_i hp
      cases h
      exact ⟨Nat.le_refl _, hp⟩
    · cases h
  | succ b ih =>
    unfold md_prefix_len at h
    split at h
    · rename_i hp
      cases h
      exact ⟨Nat.le_refl _, hp⟩
    · exact ⟨Nat.le_succ_of_le (ih h).1, (ih h).2⟩

theorem md_prefix_len_some (s : Str) (h : [']', '['].isPrefixOf s = true) (b : Nat) :
    ∃ j, md_prefix_len s b = some j := by
  induction b with
  | zero =>
    unfold md_prefix_len
    rw [if_pos h]
    exact ⟨0, rfl⟩
  | succ b ih =>
    unfold md_prefix_len
    split
    · exact ⟨b + 1, rfl⟩
    · exact ih

theorem drop_eq_cons_cons {s : Str} {j : Nat} {a b : Char} {rest : Str}
    (h : s.drop j = a :: b :: rest) :
    s = s.take j ++ a :: b :: rest ∧ s.drop (j + 2) = rest ∧ (s.take j).length = j := by
  have h1 : s = s.take j ++ a :: b :: rest := by
    rw [← h]
    exact (List.take_append_drop j s).symm
  have h2 : s.drop (j + 2) = rest := by
    have e : s.drop (j + 2) = (s.drop j).drop 2 := by
      simp [List.drop_drop, Nat.add_comm]
    rw [e, h]
    rfl
  have h3 : (s.take j).length = j := by
    rw [List.length_take]
    have hl : j < s.length := by
      by_contra hn
      rw [List.drop_of_length_le (by omega)] at h
      cases h
    omega
  exact ⟨h1, h2, h3⟩

/-- A match of the markdown pattern: at most 30 code units, `][`, at most 30 code units. -/
theorem match_md_spec (s m : Str) (n : Nat) (h : match_md s = some (m, n)) :
    ∃ j rest, j ≤ 30 ∧ s.drop j = ']' :: '[' :: rest ∧
      m = s.take j ++ ']' :: '[' :: dotRun rest ∧ (s.take j).length = j ∧
      n = j + 2 + (dotRun rest).length ∧ m <+: s := by
  unfold match_md at h
  cases hj : md_prefix_len s (dotRun s).length with
  | none => simp [hj] at h
  | some j =>
    rw [hj] at h
    simp only [Option.some.injEq, Prod.mk.injEq] at h
    obtain ⟨hjb, hpre⟩ := md_prefix_len_spec s _ j hj
    rw [List.isPrefixOf_iff_prefix] at hpre
    obtain ⟨rest, hrest⟩ := hpre
    have hdrop : s.drop j = ']' :: '[' :: rest := hrest.symm
    obtain ⟨hs, hd2, hlen⟩ := drop_eq_cons_cons hdrop
    obtain ⟨t, ht⟩ := (dotRun_spec rest).2
    have hm : m = s.take j ++ ']' :: '[' :: dotRun rest := by
      rw [← h.1, hd2]
      conv_lhs => rw [hs]
      rw [List.take_append_eq_append_take, hlen]
      have e1 : j + 2 + (dotRun rest).length - j = (dotRun rest).length + 2 := by omega
      rw [e1, List.take_of_length_le (by rw [hlen]; omega)]
      congr 1
      simp only [List.take_succ_cons]
      rw [← List.prefix_iff_eq_take.mp (dotRun_spec rest).2]
    refine ⟨j, rest, Nat.le_trans hjb (dotRun_spec s).1, hdrop, hm, hlen, ?_, ?_⟩
    · rw [← h.2, hd2]
    · rw [hm]
      conv_rhs => rw [hs, ← ht]
      exact ⟨t, by simp⟩

theorem match_md_of_prefix (s : Str) (h : [']', '['].isPrefixOf s = true) :
    ∃ mn, match_md s = some mn := by
  obtain ⟨j, hj⟩ := md_prefix_len_some s h (dotRun s).length
  unfold match_md
  rw [hj]
  exact ⟨_, rfl⟩

theorem md_matches_ne_nil_of_includes (s : Str) (h : includes s [']', '['] = true) :
    matchAll match_md 0 s ≠ [] := by
  induction s with
  | nil => exact absurd h (by decide)
  | cons c cs ih =>
    unfold includes at h
    simp only [matchAll]
    cases hm : match_md (c :: cs) with
    | some an => simp
    | none =>
      simp only
      apply ih
      rw [Bool.or_eq_true] at h
      rcases h with h | h
      · obtain ⟨mn, hmn⟩ := match_md_of_prefix _ h
        rw [hmn] at hm
        cases hm
      · exact h

theorem occurrences_drop_le (sub s : Str) (n : Nat) :
    occurrences sub (s.drop n) ≤ occurrences sub s := by
  induction s generalizing n with
  | nil => simp
  | cons c cs ih =>
    cases n with
    | zero => exact Nat.le_refl _
    | succ n =>
      simp only [List.drop_succ_cons]
      have := ih n
      have e : occurrences sub (c :: cs) =
          (if sub.isPrefixOf (c :: cs) then 1 else 0) + occurrences sub cs := rfl
      rw [e]
      omega

theorem occurrences_drop_lt (sub s : Str) (j n : Nat) (hsub : sub ≠ [])
    (hp : sub.isPrefixOf (s.drop j) = true) (hjn : j < n) :
    occurrences sub (s.drop n) + 1 ≤ occurrences sub s := by
  induction s generalizing j n with
  | nil =>
    cases sub with
    | nil => exact absurd rfl hsub
    | cons a as => simp [List.isPrefixOf] at hp
  | cons c cs ih =>
    obtain ⟨n1, rfl⟩ : ∃ n1, n = n1 + 1 := ⟨n - 1, by omega⟩
    simp only [List.drop_succ_cons]
    cases j with
    | zero =>
      simp only [List.drop_zero] at hp
      have := occurrences_drop_le sub cs n1
      rw [occurrences, if_pos hp]
      omega
    | succ j =>
      simp only [List.drop_succ_cons] at hp
      have := ih j n1 hp (by omega)
      rw [occurrences]
      omega

theorem md_matches_length_le (s : Str) (k : Nat) :
    (matchAll match_md k s).length ≤ occurrences [']', '['] (s.drop k) := by
  induction s generalizing k with
  | nil => cases k <;> simp [matchAll]
  | cons c cs ih =>
    cases k with
    | succ k =>
      simp only [matchAll, List.drop_succ_cons]
      exact ih k
    | zero =>
      simp only [matchAll, List.drop_zero]
      cases hm : match_md (c :: cs) with
      | none =>
        simp only
        have h1 := ih 0
        simp only [List.drop_zero] at h1
        have h2 := occurrences_drop_le [']', '['] (c :: cs) 1
        simp only [List.drop_succ_cons, List.drop_zero] at h2
        omega
      | some an =>
        obtain ⟨a, n⟩ := an
        simp only [List.length_cons]
        obtain ⟨j, rest, _, hdrop, _, _, hn, _⟩ := match_md_spec _ _ _ hm
        obtain ⟨n1, hn1⟩ : ∃ n1, n = n1 + 1 := ⟨n - 1, by omega⟩
        have h1 := ih (n - 1)
        have h2 := occurrences_drop_lt [']', '['] (c :: cs) j n (by simp)
          (by rw [hdrop]; exact List.isPrefixOf_iff_prefix.mpr ⟨rest, rfl⟩) (by omega)
        rw [hn1] at h2
        simp only [List.drop_succ_cons] at h2
        rw [hn1] at h1
        simp only [Nat.add_sub_cancel] at h1
        rw [hn1]
        simp only [Nat.add_sub_cancel]
        omega

/-- C11, as stated, fails: the text `a][b][c` holds two occurrences of `][` but loads into a
record with a single `errors` entry, because the second occurrence lies in the context of the
first match. -/
theorem markdown_errors_fewer_than_occurrences :
    ∃ info, load_page_info "a][b][c".toList "/en/a.html".toList = .ok info ∧
      info.errors = ["Incorrect markdown link: a][b][c".toList] ∧
      occurrences "][".toList "a][b][c".toList = 2 ∧
      info.errors.length ≠ occurrences "][".toList "a][b][c".toList :=
  ⟨_, rfl, rfl, rfl, by decide⟩

/-- C11, amended: for every page text that loads into a record, `errors` holds one entry per match
of the markdown pattern found by the left-to-right scan without overlap; each entry is
`Incorrect markdown link: ` followed by a stretch of the text made of at most 30 code units, `][`
and at most 30 code units; there is at least one entry exactly when the text contains `][`, and
never more entries than occurrences of `][`.  The hrefs of the text play no part. -/
theorem markdown_errors (content R : Str) (info : PageInfo)
    (hload : load_page_info content R = .ok info) :
    info.errors = (md_matches content).map (fun m => "Incorrect markdown link: ".toList ++ m) ∧
    (∀ e ∈ info.errors, ∃ pre suf : Str,
      e = "Incorrect markdown link: ".toList ++ (pre ++ "][".toList ++ suf) ∧
        pre.length ≤ 30 ∧ suf.length ≤ 30 ∧ (pre ++ "][".toList ++ suf) <:+: content) ∧
    (info.errors ≠ [] ↔ includes content "][".toList = true) ∧
    info.errors.length ≤ occurrences "][".toList content := by
  obtain ⟨herr, _, _⟩ := load_page_info_rest content R info hload
  have hshape : ∀ m ∈ md_matches content, ∃ pre suf : Str,
      m = pre ++ "][".toList ++ suf ∧ pre.length ≤ 30 ∧ suf.length ≤ 30 ∧ m <:+: content := by
    intro m hm
    obtain ⟨t, n, ht, hmt⟩ := matchAll_mem match_md content 0 m hm
    obtain ⟨j, rest, hj, _, hmeq, hlen, _, hpre⟩ := match_md_spec t m n hmt
    refine ⟨t.take j, dotRun rest, ?_, ?_, (dotRun_spec rest).1, ?_⟩
    · rw [hmeq]
      simp
    · rw [hlen]
      exact hj
    · exact (hpre.isInfix).trans ht.isInfix
  refine ⟨herr, ?_, ?_, ?_⟩
  · intro e he
    rw [herr, List.mem_map] at he
    obtain ⟨m, hm, rfl⟩ := he
    obtain ⟨pre, suf, h1, h2, h3, h4⟩ := hshape m hm
    refine ⟨pre, suf, ?_, h2, h3, ?_⟩
    · rw [h1]
    · rw [← h1]
      exact h4
  · rw [herr]
    constructor
    · intro hne
      cases hmm : md_matches content with
      | nil => rw [hmm] at hne; exact absurd rfl hne
      | cons m ms =>
        obtain ⟨pre, suf, h1, _, _, h4⟩ := hshape m (by rw [hmm]; exact List.mem_cons_self _ _)
        rw [includes_iff]
        refine List.IsInfix.trans ?_ h4
        rw [h1]
        exact ⟨pre, suf, rfl⟩
    · intro hinc
      have := md_matches_ne_nil_of_includes content hinc
      intro h
      apply this
      simpa using h
  · rw [herr, List.length_map]
    have := md_matches_length_le content 0
    simpa using this

/-- Witness of C11 amended, on a text with an href and two distant occurrences of `][`. -/
theorem markdown_errors_witness :
    load_page_info "<a href=\"/en/b.html\">x][y</a>\n[a][b]".toList "/en/a.html".toList =
      .ok { links := [("/en/b.html".toList, none)], fragments := [],
            errors := ["Incorrect markdown link: <a href=\"/en/b.html\">x][y</a>".toList,
                       "Incorrect markdown link: [a][b]".toList] } ∧
    ["Incorrect markdown link: <a href=\"/en/b.html\">x][y</a>".toList,
      "Incorrect markdown link: [a][b]".toList].length ≤
      occurrences "][".toList "<a href=\"/en/b.html\">x][y</a>\n[a][b]".toList :=
  ⟨rfl, (markdown_errors "<a href=\"/en/b.html\">x][y</a>\n[a][b]".toList "/en/a.html".toList
    _ rfl).2.2.2⟩

/-! ## Lemmas: the attribute patterns -/

theorem match_attr_spec (lit t v : Str) (n : Nat) (h : match_attr lit t = some (v, n)) :
    (∃ rest, t = lit ++ v ++ '"' :: rest) ∧ (∀ c ∈ v, c ≠ '"') ∧ n = lit.length + v.length + 1 := by
  unfold match_attr at h
  by_cases hp : lit.isPrefixOf t = true
  · rw [if_pos hp] at h
    rw [List.isPrefixOf_iff_prefix] at hp
    obtain ⟨r, rfl⟩ := hp
    simp only [List.drop_left] at h
    cases hd : r.dropWhile notQuote with
    | nil => simp [hd] at h
    | cons d rest =>
      rw [hd] at h
      have hsplit := List.takeWhile_append_dropWhile notQuote r
      split at h
      · rename_i rest1 heq
        simp only [Option.some.injEq, Prod.mk.injEq] at h
        obtain ⟨hv, hn⟩ := h
        cases heq
        refine ⟨⟨rest, ?_⟩, ?_, hn.symm ▸ by rw [hv]⟩
        · rw [← hv, List.append_assoc, ← hd, hsplit]
        · intro c hc
          rw [← hv] at hc
          have := List.mem_takeWhile_imp hc
          simpa [notQuote] using this
      · cases h
  · rw [if_neg hp] at h
    cases h

theorem match_attr_value (lit F post : Str) (hF : ∀ c ∈ F, c ≠ '"') :
    match_attr lit (lit ++ F ++ '"' :: post) = some (F, lit.length + F.length + 1) := by
  unfold match_attr
  have hp : lit.isPrefixOf (lit ++ F ++ '"' :: post) = true := by
    rw [List.isPrefixOf_iff_prefix, List.append_assoc]
    exact List.prefix_append _ _
  rw [if_pos hp]
  have hd : (lit ++ F ++ '"' :: post).drop lit.length = F ++ '"' :: post := by
    rw [List.append_assoc, List.drop_left]
  have hs := takeWhile_append_stop notQuote F '"' post (notQuote_of_ne hF) (by decide)
  simp only [hd, hs.1, hs.2]

theorem match_attr_none (lit s : Str) (h : startsWith s lit = false) : match_attr lit s = none := by
  unfold match_attr
  unfold startsWith at h
  rw [if_neg (by rw [h]; decide)]

/-- Every captured value stands in the text between the literal prefix and a closing quote. -/
theorem attr_captured_sound (lit content F : Str) (h : F ∈ matchAll (match_attr lit) 0 content) :
    (∀ c ∈ F, c ≠ '"') ∧ includes content (lit ++ F ++ ['"']) = true := by
  obtain ⟨t, n, ht, hm⟩ := matchAll_mem _ content 0 F h
  obtain ⟨⟨rest, hrest⟩, hq, _⟩ := match_attr_spec lit t F n hm
  refine ⟨hq, ?_⟩
  rw [includes_iff]
  have hpre : lit ++ F ++ ['"'] <+: t := by
    rw [hrest]
    exact ⟨rest, by simp⟩
  exact hpre.isInfix.trans ht.isInfix

/-- The leftmost occurrence of the literal prefix, when a value and a closing quote follow it, is a
match. -/
theorem attr_leftmost_captured (lit pre F post : Str) (hlit : lit ≠ [])
    (hF : ∀ c ∈ F, c ≠ '"')
    (hfirst : ∀ i < pre.length, startsWith ((pre ++ (lit ++ F ++ '"' :: post)).drop i) lit = false) :
    F ∈ matchAll (match_attr lit) 0 (pre ++ (lit ++ F ++ '"' :: post)) := by
  rw [matchAll_first]
  · have hne : lit ++ F ++ '"' :: post ≠ [] := by
      cases lit with
      | nil => exact absurd rfl hlit
      | cons c cs => exact List.cons_ne_nil _ _
    rw [matchAll_head _ _ _ _ (match_attr_value lit F post hF) hne (by omega)]
    exact List.mem_cons_self _ _
  · intro i hi
    apply match_attr_none
    have := hfirst i hi
    rw [List.drop_append_of_le_length (Nat.le_of_lt hi)] at this
    exact this

/-- C12, as stated, fails: the text ` id=" id="x"` contains ` id="x"` as a substring, and `x`
holds no double quote, yet the fragment set of the loaded record is `{ id=}` and `x` is not in
it (nor answered by `in`): the occurrence lies inside the value of the match that starts
earlier. -/
theorem overlapped_attribute_not_captured :
    ∃ info, load_page_info " id=\" id=\"x\"".toList "/en/a.html".toList = .ok info ∧
      info.fragments = [" id=".toList] ∧
      includes " id=\" id=\"x\"".toList (" id=\"".toList ++ "x".toList ++ "\"".toList) = true ∧
      (∀ c ∈ "x".toList, c ≠ '"') ∧
      "x".toList ∉ info.fragments ∧ in_fragments "x".toList info = false :=
  ⟨_, rfl, rfl, rfl, by decide, by decide, rfl⟩

/-- C12, amended: for every page text that loads into a record and every string `F` other than
`__proto__`, `F` is a key of the fragment set exactly when it is the value of a match of
` id="([^"]*)"` or of ` name="([^"]*)"` found by the left-to-right scans without overlap; every key
holds no double quote and occurs in the text as ` id="F"` or ` name="F"`; an occurrence
` id="F"` (or ` name="F"`) before which the text holds no other ` id="` (or ` name="`) is always
captured; the keys are distinct; and a text with no such substring for any `F` gives the empty
set. -/
theorem fragment_set (content R : Str) (info : PageInfo)
    (hload : load_page_info content R = .ok info) :
    (∀ F : Str, F ≠ "__proto__".toList →
      (F ∈ info.fragments ↔ F ∈ id_matches content ∨ F ∈ name_matches content)) ∧
    (∀ F ∈ info.fragments, (∀ c ∈ F, c ≠ '"') ∧
      (includes content (" id=\"".toList ++ F ++ "\"".toList) = true ∨
        includes content (" name=\"".toList ++ F ++ "\"".toList) = true)) ∧
    (∀ pre F post : Str, F ≠ "__proto__".toList → (∀ c ∈ F, c ≠ '"') →
      content = pre ++ " id=\"".toList ++ F ++ "\"".toList ++ post →
      (∀ i < pre.length, startsWith (content.drop i) " id=\"".toList = false) →
      F ∈ info.fragments) ∧
    (∀ pre F post : Str, F ≠ "__proto__".toList → (∀ c ∈ F, c ≠ '"') →
      content = pre ++ " name=\"".toList ++ F ++ "\"".toList ++ post →
      (∀ i < pre.length, startsWith (content.drop i) " name=\"".toList = false) →
      F ∈ info.fragments) ∧
    info.fragments.Nodup ∧
    ((∀ F : Str, includes content (" id=\"".toList ++ F ++ "\"".toList) = false ∧
        includes content (" name=\"".toList ++ F ++ "\"".toList) = false) →
      info.fragments = []) := by
  obtain ⟨_, hmem, hnodup⟩ := load_page_info_rest content R info hload
  have hsound : ∀ F ∈ info.fragments, (∀ c ∈ F, c ≠ '"') ∧
      (includes content (" id=\"".toList ++ F ++ "\"".toList) = true ∨
        includes content (" name=\"".toList ++ F ++ "\"".toList) = true) := by
    intro F hF
    rcases ((hmem F).mp hF).1 with h | h
    · have := attr_captured_sound " id=\"".toList content F h
      exact ⟨this.1, Or.inl this.2⟩
    · have := attr_captured_sound " name=\"".toList content F h
      exact ⟨this.1, Or.inr this.2⟩
  have hleft : ∀ (lit pre F post : Str), lit ≠ [] → (∀ c ∈ F, c ≠ '"') →
      content = pre ++ lit ++ F ++ "\"".toList ++ post →
      (∀ i < pre.length, startsWith (content.drop i) lit = false) →
      F ∈ matchAll (match_attr lit) 0 content := by
    intro lit pre F post hlit hF hc hfirst
    have e : content = pre ++ (lit ++ F ++ '"' :: post) := by
      rw [hc]
      simp
    rw [e] at hfirst ⊢
    exact attr_leftmost_captured lit pre F post hlit hF hfirst
  refine ⟨?_, hsound, ?_, ?_, hnodup, ?_⟩
  · intro F hF
    rw [hmem]
    exact ⟨fun h => h.1, fun h => ⟨h, hF⟩⟩
  · intro pre F post hF hq hc hfirst
    exact (hmem F).mpr ⟨Or.inl (hleft _ pre F post (by decide) hq hc hfirst), hF⟩
  · intro pre F post hF hq hc hfirst
    exact (hmem F).mpr ⟨Or.inr (hleft _ pre F post (by decide) hq hc hfirst), hF⟩
  · intro hnone
    cases hfr : info.fragments with
    | nil => rfl
    | cons F rest =>
      exfalso
      have hF : F ∈ info.fragments := by
        rw [hfr]
        exact List.mem_cons_self _ _
      rcases (hsound F hF).2 with h | h
      · rw [(hnone F).1] at h
        cases h
      · rw [(hnone F).2] at h
        cases h

/-- Witness of C12 amended: three anchors, one of them repeated under the other attribute. -/
theorem fragment_set_witness :
    load_page_info "<h1 id=\"intro\"><a name=\"top\"><a name=\"intro\">".toList
        "/en/a.html".toList =
      .ok { links := [], fragments := ["intro".toList, "top".toList], errors := [] } ∧
    "intro".toList ∈ ["intro".toList, "top".toList] ∧
    ["intro".toList, "top".toList].Nodup :=
  have h := fragment_set "<h1 id=\"intro\"><a name=\"top\"><a name=\"intro\">".toList
    "/en/a.html".toList { links := [], fragments := ["intro".toList, "top".toList], errors := [] }
    rfl
  ⟨rfl,
   h.2.2.1 "<h1".toList "intro".toList "><a name=\"top\"><a name=\"intro\">".toList
     (by decide) (by decide) rfl (by decide),
   h.2.2.2.2.1⟩

end ValidateLinks
